import Mathlib

/-
Verification of the script-module deserializer (torch/csrc/jit/import.cpp).

The development shallowly embeds the deserialization pipeline:
  * the container reader interface (keyed records plus a trailing metadata record),
  * the JSON metadata transcoding step,
  * tensor materialization over a deduplicating storage map (loadTensorTable / loadTensor),
  * the recursive module-tree conversion (convertModule), modelled as the ordered
    sequence of calls it makes to the external module-lookup callback, the module
    object, and the external code loader (an event trace),
  * the public entry points (load from stream, load from path, import_ir_module).

Machine integers (uint64 keys and sizes) are modelled as Nat: the code only ever
compares them and divides them, so no overflow wrap is observable.
-/

namespace TorchJit

/-- Scalar element types, mirroring the caffe2 type metas used by
`DataTypeToTypeMeta` / `typeMetaToScalarType` in loadTensor. Only the item size
is semantically relevant to the deserializer. -/
inductive DType where
  | uint8 | int8 | int16 | int32 | int64 | float16 | float32 | float64
deriving DecidableEq, Repr

/-- Byte size of one element, as `at::CPU(type).typeMeta().itemsize()`. -/
def DType.itemsize : DType → Nat
  | .uint8 => 1
  | .int8 => 1
  | .int16 => 2
  | .int32 => 4
  | .int64 => 8
  | .float16 => 2
  | .float32 => 4
  | .float64 => 8

/-- A storage reference inside the metadata: a container record key (the proto
stores it as a decimal string, converted by `caffe2::stoull`; we keep the
numeric value) together with the declared byte size of the record. -/
structure StorageRef where
  record_key : Nat
  expected_byte_size : Nat
deriving DecidableEq, Repr

/-- torch::TensorDef from the transcoded metadata. -/
structure TensorDef where
  dims : List Int
  strides : List Int
  offset : Int
  data_type : DType
  requires_grad : Bool
  data : StorageRef
deriving DecidableEq, Repr

/-- torch::ParameterDef from the transcoded metadata. -/
structure ParameterDef where
  name : String
  tensor_id : Nat
  is_buffer : Bool
deriving DecidableEq, Repr

/-- torch::ModuleDef: name, optimize flag, ordered submodules, ordered
parameters, and the code-arena storage reference (torchscript_arena). -/
inductive ModuleDef where
  | mk : String → Bool → List ModuleDef → List ParameterDef → StorageRef → ModuleDef
deriving Repr

def ModuleDef.name : ModuleDef → String
  | .mk n _ _ _ _ => n

def ModuleDef.optimize : ModuleDef → Bool
  | .mk _ o _ _ _ => o

def ModuleDef.submodules : ModuleDef → List ModuleDef
  | .mk _ _ s _ _ => s

def ModuleDef.parameters : ModuleDef → List ParameterDef
  | .mk _ _ _ p _ => p

def ModuleDef.torchscript_arena : ModuleDef → StorageRef
  | .mk _ _ _ _ a => a

/-- torch::ModelDef: the root module plus the flat tensor list. -/
structure ModelDef where
  main_module : ModuleDef
  tensors : List TensorDef

/-- The content of the trailing metadata record, as seen by the JSON
transcoding step: either syntactically invalid JSON, JSON whose shape
disagrees with the schema, or a well-formed document denoting a ModelDef. -/
inductive MetaJson where
  | invalid
  | mismatched
  | valid : ModelDef → MetaJson

/-- Errors of the deserializer, one per failure site of import.cpp
(AT_ERROR / AT_ASSERT / AT_CHECK / vector::at), named after the spec's
error taxonomy. -/
inductive DeserializeError where
  | archiveOpenError
  | archiveReadError
  | metadataTranscodeError
  | schemaValidationError
  | storageSizeMismatchError
  | codeArenaSizeMismatchError
  | invalidTensorIdError
deriving DecidableEq, Repr

/-- The archive as exposed by PyTorchStreamReader: keyed byte records
(association list, keys unique in a well-formed archive; lookup finds the
first binding) plus the trailing metadata record. `lastRecord = none`
models a stream whose last record cannot be read (truncated or failed
stream). -/
structure Archive where
  records : List (Nat × List Nat)
  lastRecord : Option MetaJson

/-- First-match association lookup (std::unordered_map::find /
Module::find_module). -/
def assocFind {α β : Type} [DecidableEq α] : List (α × β) → α → Option β
  | [], _ => none
  | (k, v) :: rest, a => if k = a then some v else assocFind rest a

/-- PyTorchStreamReader::getRecordWithKey; `none` models the
record-not-found / truncated-read failure (ArchiveReadError). -/
def getRecordWithKey (ar : Archive) (key : Nat) : Option (List Nat) :=
  assocFind ar.records key

/-- An at::Storage produced for one container record. `id` is the
allocation identity (fresh per actual fetch), so equality of `Storage`
values coincides with identity of the underlying buffer. `numel` is the
element count passed to the at::Storage constructor. -/
structure Storage where
  id : Nat
  bytes : List Nat
  numel : Nat
deriving DecidableEq, Repr

/-- A materialized tensor: a view (offset, dims, strides, requires_grad)
over a shared storage, as built by `_th_tensor` + `make_variable`. -/
structure Tensor where
  storage : Storage
  offset : Int
  dims : List Int
  strides : List Int
  requires_grad : Bool
deriving DecidableEq, Repr

def defaultTensor : Tensor := ⟨⟨0, [], 0⟩, 0, [], [], false⟩

/-- State threaded through tensor-table construction: the storage
deduplication map (`storageMap` local of loadTensorTable), a fresh-id
counter for allocations, and the ordered log of keys actually fetched
from the container reader. -/
structure LoadState where
  storageMap : List (Nat × Storage)
  nextId : Nat
  fetchLog : List Nat
deriving DecidableEq, Repr

def initLoadState : LoadState := ⟨[], 0, []⟩

/-- ScriptModuleDeserializer::loadTensor: resolve the storage reference
through the deduplication map (fetching, size-checking and inserting on a
miss), then build the tensor view. -/
def loadTensor (ar : Archive) (tensorProto : TensorDef) (s : LoadState) :
    Except DeserializeError (Tensor × LoadState) :=
  match assocFind s.storageMap tensorProto.data.record_key with
  | some storage =>
      .ok (⟨storage, tensorProto.offset, tensorProto.dims, tensorProto.strides,
            tensorProto.requires_grad⟩, s)
  | none =>
      match getRecordWithKey ar tensorProto.data.record_key with
      | none => .error .archiveReadError
      | some bytes =>
          if bytes.length = tensorProto.data.expected_byte_size then
            .ok (⟨⟨s.nextId, bytes, bytes.length / tensorProto.data_type.itemsize⟩,
                  tensorProto.offset, tensorProto.dims, tensorProto.strides,
                  tensorProto.requires_grad⟩,
                 ⟨(tensorProto.data.record_key,
                    ⟨s.nextId, bytes, bytes.length / tensorProto.data_type.itemsize⟩)
                    :: s.storageMap,
                  s.nextId + 1, s.fetchLog ++ [tensorProto.data.record_key]⟩)
          else .error .storageSizeMismatchError

/-- ScriptModuleDeserializer::loadTensorTable: materialize every tensor of
the model's tensor list in list order, threading the deduplication map. -/
def loadTensors (ar : Archive) : List TensorDef → LoadState →
    Except DeserializeError (List Tensor × LoadState)
  | [], s => .ok ([], s)
  | t :: ts, s =>
      match loadTensor ar t s with
      | .error e => .error e
      | .ok r =>
          match loadTensors ar ts r.2 with
          | .error e => .error e
          | .ok rest => .ok (r.1 :: rest.1, rest.2)

/-- One observable call of convertModule to an external collaborator, in
order: the module-lookup callback, Module::set_optimized,
Module::register_parameter, and import_methods (raw code-arena bytes plus
the tensor table). The first field is always the module path at which the
call happens (the lookup callback's handle is determined by the path). -/
inductive Event where
  | lookup : List String → Event
  | setOptimized : List String → Bool → Event
  | registerParam : List String → String → Tensor → Bool → Event
  | loadCode : List String → List Nat → List Tensor → Event
deriving DecidableEq, Repr

/-- The module path an event is addressed to. -/
def eventPath : Event → List String
  | .lookup q => q
  | .setOptimized q _ => q
  | .registerParam q _ _ _ => q
  | .loadCode q _ _ => q

/-- The parameter loop of convertModule: for each ParameterDef in order,
`tensor_table_.at(tensor_id)` (out of range fails, as vector::at) and
register the tensor under the declared name and buffer classification. -/
def registerParams (tt : List Tensor) (path : List String) :
    List ParameterDef → Except DeserializeError (List Event)
  | [] => .ok []
  | p :: ps =>
      match tt[p.tensor_id]? with
      | none => .error .invalidTensorIdError
      | some t =>
          match registerParams tt path ps with
          | .error e => .error e
          | .ok evs => .ok (.registerParam path p.name t p.is_buffer :: evs)

/-- The code-arena step of convertModule: fetch the arena record by key,
check the fetched size against the declared size (JIT_ASSERT), and hand
the bytes plus the tensor table to import_methods. -/
def loadArena (ar : Archive) (tt : List Tensor) (path : List String) (arena : StorageRef) :
    Except DeserializeError Event :=
  match getRecordWithKey ar arena.record_key with
  | none => .error .archiveReadError
  | some bytes =>
      if bytes.length = arena.expected_byte_size then .ok (.loadCode path bytes tt)
      else .error .codeArenaSizeMismatchError

mutual

/-- ScriptModuleDeserializer::convertModule, as the ordered event trace of
its external calls plus the threaded moduleStack_. On entry the module at
the current stack is looked up and its optimize flag set; then each
submodule is converted (pushing its name, recursing, popping); then the
parameters are registered; then the code arena is loaded. -/
def convertModule (ar : Archive) (tt : List Tensor) :
    ModuleDef → List String → Except DeserializeError (List Event × List String)
  | .mk _ opt subs params arena, stack =>
      match convertSubmodules ar tt subs stack with
      | .error e => .error e
      | .ok sub =>
          match registerParams tt stack params with
          | .error e => .error e
          | .ok paramEvents =>
              match loadArena ar tt stack arena with
              | .error e => .error e
              | .ok codeEvent =>
                  .ok (.lookup stack :: .setOptimized stack opt ::
                         (sub.1 ++ paramEvents ++ [codeEvent]),
                       sub.2)

/-- The submodule loop of convertModule: for each child in order,
moduleStack_.emplace_back(name), recurse, moduleStack_.pop_back(). -/
def convertSubmodules (ar : Archive) (tt : List Tensor) :
    List ModuleDef → List String → Except DeserializeError (List Event × List String)
  | [], stack => .ok ([], stack)
  | d :: ds, stack =>
      match convertModule ar tt d (stack ++ [d.name]) with
      | .error e => .error e
      | .ok r1 =>
          match convertSubmodules ar tt ds r1.2.dropLast with
          | .error e => .error e
          | .ok r2 => .ok (r1.1 ++ r2.1, r2.2)

end

/-- PyTorchStreamReader::getLastRecord on the metadata record. -/
def getLastRecord (ar : Archive) : Except DeserializeError MetaJson :=
  match ar.lastRecord with
  | none => .error .archiveReadError
  | some r => .ok r

/-- Modelled from the spec: the JSON transcoding step of deserialize
(google::protobuf JsonToBinaryString with a type resolver, followed by
ParseFromString) is external library code not present under the source
tree; per the spec it fails with MetadataTranscodeError on syntactically
invalid JSON, with SchemaValidationError when the JSON shape disagrees
with the schema, and otherwise yields the fully populated ModelDef. The
surrounding control flow (abort on a failed status, abort on a failed
parse, otherwise continue with the parsed descriptor) is the code's. -/
def transcode : MetaJson → Except DeserializeError ModelDef
  | .invalid => .error .metadataTranscodeError
  | .mismatched => .error .schemaValidationError
  | .valid m => .ok m

/-- The observable outcome of one successful deserialize call: the tensor
table, the final dedup/fetch state, the event trace of convertModule, and
the final moduleStack_. -/
structure DeserializeOutput where
  tensorTable : List Tensor
  finalLoadState : LoadState
  trace : List Event
  finalStack : List String
deriving DecidableEq, Repr

/-- ScriptModuleDeserializer::deserialize: fetch the last record,
transcode it, build the tensor table from the model's tensor list, then
convert the main module with the (initially empty) module stack. -/
def deserialize (ar : Archive) : Except DeserializeError DeserializeOutput :=
  match getLastRecord ar with
  | .error e => .error e
  | .ok lastRec =>
      match transcode lastRec with
      | .error e => .error e
      | .ok modelDef =>
          match loadTensors ar modelDef.tensors initLoadState with
          | .error e => .error e
          | .ok r =>
              match convertModule ar r.1 modelDef.main_module [] with
              | .error e => .error e
              | .ok c => .ok ⟨r.1, r.2, c.1, c.2⟩

/-- A script::Module as far as the deserializer observes it: the optimize
flag, the ordered named submodules, and the ordered registered parameters
(name, tensor, is_buffer). Method definitions (import_methods) live in the
external code loader and are not part of this object. -/
inductive Module where
  | mk : Bool → List (String × Module) → List (String × Tensor × Bool) → Module

def Module.optimized : Module → Bool
  | .mk o _ _ => o

def Module.submodules : Module → List (String × Module)
  | .mk _ s _ => s

def Module.parameters : Module → List (String × Tensor × Bool)
  | .mk _ _ p => p

def emptyModule : Module := .mk false [] []

def Module.withOptimized (b : Bool) : Module → Module
  | .mk _ subs ps => .mk b subs ps

def Module.addParam (name : String) (t : Tensor) (buf : Bool) : Module → Module
  | .mk o subs ps => .mk o subs (ps ++ [(name, t, buf)])

/-- Replace the value of the first binding of `n` (the binding found by
`assocFind`), leaving everything else unchanged. -/
def assocReplace {β : Type} : List (String × β) → String → β → List (String × β)
  | [], _, _ => []
  | (k, v) :: rest, n, x =>
      if k = n then (k, x) :: rest else (k, v) :: assocReplace rest n x

/-- Navigate from a module along a path of child names with the
create-if-absent semantics of the load() lookup lambda (find_module,
register_module on a miss, get_module), and apply `f` to the module at the
end of the path. -/
def updateAt (f : Module → Module) : Module → List String → Module
  | m, [] => f m
  | m, n :: rest =>
      match m with
      | .mk o subs ps =>
          match assocFind subs n with
          | some child => .mk o (assocReplace subs n (updateAt f child rest)) ps
          | none => .mk o (subs ++ [(n, updateAt f emptyModule rest)]) ps

/-- The effect of one convertModule event on the module tree rooted at the
load() entry point's fresh root: lookup is the create-if-absent walk,
set_optimized and register_parameter mutate the module at the event's
path, and import_methods does not change the tree structure (methods are
outside the model). -/
def applyEvent (m : Module) : Event → Module
  | .lookup q => updateAt id m q
  | .setOptimized q b => updateAt (Module.withOptimized b) m q
  | .registerParam q name t buf => updateAt (Module.addParam name t buf) m q
  | .loadCode _ _ _ => m

/-- torch::jit::load(std::istream&): deserialize with a fresh root module
and the create-if-absent lookup lambda, returning the populated root. -/
def load_stream (ar : Archive) : Except DeserializeError Module :=
  match deserialize ar with
  | .error e => .error e
  | .ok out => .ok (out.trace.foldl applyEvent emptyModule)

/-- The file system at the open-from-path boundary: paths mapped to the
archive denoted by the file's bytes; an absent path is a path that cannot
be opened as a binary input stream. -/
abbrev FileSystem := List (String × Archive)

def openBinary (fs : FileSystem) (path : String) : Option Archive :=
  assocFind fs path

/-- The stream held by a ScriptModuleDeserializer constructed from a file
name: the constructor opens the ifstream and performs no failure check, so
an unopenable path yields a failed stream, over which every reader
operation fails (modelled as the archive with no readable records). -/
def failedStream : Archive := ⟨[], none⟩

def archiveOfFile (fs : FileSystem) (path : String) : Archive :=
  match openBinary fs path with
  | some ar => ar
  | none => failedStream

/-- torch::jit::import_ir_module(module_lookup, std::istream&):
construct a deserializer on the stream and deserialize. -/
def importIrModuleStream (ar : Archive) : Except DeserializeError DeserializeOutput :=
  deserialize ar

/-- torch::jit::import_ir_module(module_lookup, filename): construct a
deserializer from the file name (no open check) and deserialize. -/
def importIrModuleFile (fs : FileSystem) (path : String) :
    Except DeserializeError DeserializeOutput :=
  deserialize (archiveOfFile fs path)

/-- torch::jit::load(filename): open the file, AT_CHECK that the open
succeeded (failing before any deserialization), then delegate to
load(std::istream&). -/
def load_file (fs : FileSystem) (path : String) : Except DeserializeError Module :=
  match openBinary fs path with
  | none => .error .archiveOpenError
  | some ar => load_stream ar

mutual

/-- The pre-order, left-to-right listing of module paths of a descriptor
tree, starting from a given root path. -/
def preorderPaths : ModuleDef → List String → List (List String)
  | .mk _ _ subs _ _, p => p :: preorderPathsList subs p

def preorderPathsList : List ModuleDef → List String → List (List String)
  | [], _ => []
  | d :: ds, p => preorderPaths d (p ++ [d.name]) ++ preorderPathsList ds p

end

/-- The paths of the lookup events of a trace, in order. -/
def lookupPathsOf (tr : List Event) : List (List String) :=
  tr.filterMap fun e =>
    match e with
    | .lookup q => some q
    | _ => none

/-- The shape of a module tree: child order and child names, recursively. -/
inductive Shape where
  | node : List (String × Shape) → Shape

mutual

def descShape : ModuleDef → Shape
  | .mk _ _ subs _ _ => .node (descShapeList subs)

def descShapeList : List ModuleDef → List (String × Shape)
  | [] => []
  | d :: ds => (d.name, descShape d) :: descShapeList ds

end

mutual

def modShape : Module → Shape
  | .mk _ subs _ => .node (modShapeList subs)

def modShapeList : List (String × Module) → List (String × Shape)
  | [] => []
  | (n, m) :: rest => (n, modShape m) :: modShapeList rest

end

/-- Distinctness of a list of strings (no two siblings share a name). -/
def nodupStr : List String → Bool
  | [] => true
  | s :: rest => if s ∈ rest then false else nodupStr rest

mutual

/-- Every module of the descriptor tree has pairwise distinct child
names. -/
def noDupSiblings : ModuleDef → Bool
  | .mk _ _ subs _ _ => nodupStr (subs.map ModuleDef.name) && noDupSiblingsList subs

def noDupSiblingsList : List ModuleDef → Bool
  | [] => true
  | d :: ds => noDupSiblings d && noDupSiblingsList ds

end

mutual

/-- The module tree a descriptor denotes: the declared optimize flag, one
child per submodule descriptor in order, and one registered parameter per
ParameterDef in order (tensor taken from the tensor table at tensor_id). -/
def buildModule (tt : List Tensor) : ModuleDef → Module
  | .mk _ opt subs params _ =>
      .mk opt (buildModuleList tt subs)
        (params.map fun p => (p.name, tt.getD p.tensor_id defaultTensor, p.is_buffer))

def buildModuleList (tt : List Tensor) : List ModuleDef → List (String × Module)
  | [] => []
  | d :: ds => (d.name, buildModule tt d) :: buildModuleList tt ds

end

/-- Register the parameters of a ParameterDef list on a module node, in
order. -/
def addParamsLocal (tt : List Tensor) (params : List ParameterDef) (node : Module) : Module :=
  params.foldl
    (fun nd p => Module.addParam p.name (tt.getD p.tensor_id defaultTensor) p.is_buffer nd)
    node

mutual

/-- The node-local transformation that one convertModule call performs on
the module at its path (used to localize the trace semantics): set the
optimize flag, fold the children's transformations one level down, then
register the parameters. -/
def localTransform (tt : List Tensor) : ModuleDef → Module → Module
  | .mk _ opt subs params _, node =>
      addParamsLocal tt params (localChildren tt subs (Module.withOptimized opt node))

def localChildren (tt : List Tensor) : List ModuleDef → Module → Module
  | [], node => node
  | d :: ds, node => localChildren tt ds (updateAt (localTransform tt d) node [d.name])

end

def defaultTensorDef : TensorDef := ⟨[], [], 0, .uint8, false, ⟨0, 0⟩⟩

section TensorTableLemmas

variable {ar : Archive} {t : TensorDef} {s s' : LoadState} {v : Tensor}

/-- After a successful loadTensor, the dedup map binds the tensor's record
key to exactly the storage the returned tensor views. -/
theorem loadTensor_storage_of_ok (h : loadTensor ar t s = .ok (v, s')) :
    assocFind s'.storageMap t.data.record_key = some v.storage := by
  unfold loadTensor at h
  split at h
  next st hfind =>
    rw [Except.ok.injEq, Prod.mk.injEq] at h
    obtain ⟨hv, hs⟩ := h
    subst hs
    rw [hfind, ← hv]
  next hfind =>
    split at h
    next => exact absurd h (by simp)
    next bytes hget =>
      split at h
      next hlen =>
        rw [Except.ok.injEq, Prod.mk.injEq] at h
        obtain ⟨hv, hs⟩ := h
        subst hs
        simp [assocFind, ← hv]
      next => exact absurd h (by simp)

/-- loadTensor never removes or rebinds an existing dedup-map entry. -/
theorem loadTensor_stable (h : loadTensor ar t s = .ok (v, s'))
    {k : Nat} {st : Storage} (hk : assocFind s.storageMap k = some st) :
    assocFind s'.storageMap k = some st := by
  unfold loadTensor at h
  split at h
  next st0 hfind =>
    rw [Except.ok.injEq, Prod.mk.injEq] at h
    rw [← h.2]
    exact hk
  next hfind =>
    split at h
    next => exact absurd h (by simp)
    next bytes hget =>
      split at h
      next hlen =>
        rw [Except.ok.injEq, Prod.mk.injEq] at h
        rw [← h.2]
        have hne : t.data.record_key ≠ k := by
          intro he
          rw [he, hk] at hfind
          exact Option.noConfusion hfind
        simpa [assocFind, hne] using hk
      next => exact absurd h (by simp)

/-- The dedup-map domain after loadTensor is the old domain plus the
tensor's record key. -/
theorem loadTensor_domain (h : loadTensor ar t s = .ok (v, s')) (k : Nat) :
    (assocFind s'.storageMap k).isSome = true ↔
      ((assocFind s.storageMap k).isSome = true ∨ k = t.data.record_key) := by
  unfold loadTensor at h
  split at h
  next st0 hfind =>
    rw [Except.ok.injEq, Prod.mk.injEq] at h
    rw [← h.2]
    constructor
    · exact fun hh => Or.inl hh
    · rintro (hh | rfl)
      · exact hh
      · rw [hfind]; rfl
  next hfind =>
    split at h
    next => exact absurd h (by simp)
    next bytes hget =>
      split at h
      next hlen =>
        rw [Except.ok.injEq, Prod.mk.injEq] at h
        rw [← h.2]
        by_cases hk : t.data.record_key = k
        · subst hk
          simp [assocFind, hfind]
        · simp [assocFind, hk, Ne.symm hk]
      next => exact absurd h (by simp)

/-- loadTensor appends the key to the fetch log exactly when the key was
absent from the dedup map (a cache miss), and leaves it unchanged on a
hit. -/
theorem loadTensor_fetchLog (h : loadTensor ar t s = .ok (v, s')) :
    s'.fetchLog =
      if (assocFind s.storageMap t.data.record_key).isSome = true then s.fetchLog
      else s.fetchLog ++ [t.data.record_key] := by
  unfold loadTensor at h
  split at h
  next st0 hfind =>
    rw [Except.ok.injEq, Prod.mk.injEq] at h
    rw [← h.2, hfind]
    rfl
  next hfind =>
    split at h
    next => exact absurd h (by simp)
    next bytes hget =>
      split at h
      next hlen =>
        rw [Except.ok.injEq, Prod.mk.injEq] at h
        rw [← h.2, hfind]
        rfl
      next => exact absurd h (by simp)

/-- The tensor returned by loadTensor carries the descriptor's view
fields. -/
theorem loadTensor_fields (h : loadTensor ar t s = .ok (v, s')) :
    v.offset = t.offset ∧ v.dims = t.dims ∧ v.strides = t.strides ∧
      v.requires_grad = t.requires_grad := by
  unfold loadTensor at h
  split at h
  next st0 hfind =>
    rw [Except.ok.injEq, Prod.mk.injEq] at h
    rw [← h.1]
    exact ⟨rfl, rfl, rfl, rfl⟩
  next hfind =>
    split at h
    next => exact absurd h (by simp)
    next bytes hget =>
      split at h
      next hlen =>
        rw [Except.ok.injEq, Prod.mk.injEq] at h
        rw [← h.1]
        exact ⟨rfl, rfl, rfl, rfl⟩
      next => exact absurd h (by simp)

/-- The fetch log lists exactly the dedup map's domain, without
repetition. -/
def FetchInv (s : LoadState) : Prop :=
  s.fetchLog.Nodup ∧ ∀ k, k ∈ s.fetchLog ↔ (assocFind s.storageMap k).isSome = true

theorem fetchInv_init : FetchInv initLoadState := by
  constructor
  · exact List.nodup_nil
  · intro k
    simp [initLoadState, assocFind]

theorem loadTensor_inv (h : loadTensor ar t s = .ok (v, s')) (hinv : FetchInv s) :
    FetchInv s' := by
  obtain ⟨hnd, hdom⟩ := hinv
  have hlog := loadTensor_fetchLog h
  by_cases hit : (assocFind s.storageMap t.data.record_key).isSome = true
  · rw [if_pos hit] at hlog
    refine ⟨hlog ▸ hnd, fun k => ?_⟩
    rw [hlog, hdom k, loadTensor_domain h k]
    constructor
    · exact fun hh => Or.inl hh
    · rintro (hh | rfl)
      · exact hh
      · exact hit
  · rw [if_neg hit] at hlog
    constructor
    · rw [hlog]
      have : t.data.record_key ∉ s.fetchLog := fun hm => hit ((hdom _).1 hm)
      simp [List.nodup_append, hnd, this]
    · intro k
      rw [hlog, loadTensor_domain h k, List.mem_append, List.mem_singleton, hdom k]

end TensorTableLemmas

section TensorTableListLemmas

variable {ar : Archive} {ts : List TensorDef} {s s' : LoadState} {tt : List Tensor}

/-- loadTensors never removes or rebinds an existing dedup-map entry. -/
theorem loadTensors_stable (h : loadTensors ar ts s = .ok (tt, s'))
    {k : Nat} {st : Storage} (hk : assocFind s.storageMap k = some st) :
    assocFind s'.storageMap k = some st := by
  induction ts generalizing s tt s' with
  | nil =>
      unfold loadTensors at h
      rw [Except.ok.injEq, Prod.mk.injEq] at h
      rw [← h.2]
      exact hk
  | cons t rest ih =>
      unfold loadTensors at h
      split at h
      next e hr => exact absurd h (by simp)
      next r hr =>
        obtain ⟨v1, s1⟩ := r
        split at h
        next e hrest => exact absurd h (by simp)
        next r2 hrest =>
          obtain ⟨tt2, s2⟩ := r2
          rw [Except.ok.injEq, Prod.mk.injEq] at h
          obtain ⟨-, hs⟩ := h
          subst hs
          exact ih hrest (loadTensor_stable hr hk)

/-- FetchInv is preserved by loadTensors, and the final dedup-map domain
is the starting domain plus the record keys of the processed
descriptors. -/
theorem loadTensors_inv (h : loadTensors ar ts s = .ok (tt, s')) (hinv : FetchInv s) :
    FetchInv s' ∧ ∀ k, (assocFind s'.storageMap k).isSome = true ↔
      ((assocFind s.storageMap k).isSome = true ∨
        k ∈ ts.map fun t => t.data.record_key) := by
  induction ts generalizing s tt s' with
  | nil =>
      unfold loadTensors at h
      rw [Except.ok.injEq, Prod.mk.injEq] at h
      rw [← h.2]
      exact ⟨hinv, by simp⟩
  | cons t rest ih =>
      unfold loadTensors at h
      split at h
      next e hr => exact absurd h (by simp)
      next r hr =>
        obtain ⟨v1, s1⟩ := r
        split at h
        next e hrest => exact absurd h (by simp)
        next r2 hrest =>
          obtain ⟨tt2, s2⟩ := r2
          rw [Except.ok.injEq, Prod.mk.injEq] at h
          obtain ⟨-, hs⟩ := h
          subst hs
          have h1 := loadTensor_inv hr hinv
          have hd1 := loadTensor_domain hr
          obtain ⟨h2, hd2⟩ := ih hrest h1
          refine ⟨h2, fun k => ?_⟩
          rw [hd2 k, hd1 k]
          simp only [List.map_cons, List.mem_cons]
          tauto

/-- After a successful loadTensors run, the i-th materialized tensor's
storage is the dedup map's binding for the i-th descriptor's record key,
and the table has one tensor per descriptor. -/
theorem loadTensors_getStorage (h : loadTensors ar ts s = .ok (tt, s')) :
    tt.length = ts.length ∧
    ∀ i, i < ts.length →
      assocFind s'.storageMap ((ts.getD i defaultTensorDef).data.record_key) =
        some ((tt.getD i defaultTensor).storage) := by
  induction ts generalizing s tt s' with
  | nil =>
      unfold loadTensors at h
      rw [Except.ok.injEq, Prod.mk.injEq] at h
      rw [← h.1]
      exact ⟨rfl, fun i hi => absurd hi (Nat.not_lt_zero i)⟩
  | cons t rest ih =>
      unfold loadTensors at h
      split at h
      next e hr => exact absurd h (by simp)
      next r hr =>
        obtain ⟨v1, s1⟩ := r
        split at h
        next e hrest => exact absurd h (by simp)
        next r2 hrest =>
          obtain ⟨tt2, s2⟩ := r2
          rw [Except.ok.injEq, Prod.mk.injEq] at h
          obtain ⟨htt, hs⟩ := h
          subst hs
          obtain ⟨hlen, hidx⟩ := ih hrest
          constructor
          · rw [← htt]
            simp [hlen]
          · intro i hi
            match i with
            | 0 =>
                have h0 := loadTensor_storage_of_ok hr
                have h1 := loadTensors_stable hrest h0
                rw [← htt]
                simpa using h1
            | Nat.succ j =>
                have hj : j < rest.length := Nat.lt_of_succ_lt_succ hi
                have := hidx j hj
                rw [← htt]
                simpa using this

end TensorTableListLemmas

theorem getLastRecord_ok_iff {ar : Archive} {r : MetaJson} :
    getLastRecord ar = .ok r ↔ ar.lastRecord = some r := by
  cases h : ar.lastRecord <;> simp [getLastRecord, h]

theorem transcode_ok_iff {mj : MetaJson} {m : ModelDef} :
    transcode mj = .ok m ↔ mj = .valid m := by
  cases mj <;> simp [transcode]

/-- Inversion of a successful deserialize call: the last record held a
schema-valid metadata document, the tensor table was built from its
tensor list starting from the empty dedup state, and the main module was
converted with the empty module stack. -/
theorem deserialize_ok_inv {ar : Archive} {out : DeserializeOutput}
    (h : deserialize ar = .ok out) :
    ∃ m : ModelDef, ar.lastRecord = some (.valid m) ∧
      loadTensors ar m.tensors initLoadState = .ok (out.tensorTable, out.finalLoadState) ∧
      convertModule ar out.tensorTable m.main_module [] = .ok (out.trace, out.finalStack) := by
  unfold deserialize at h
  split at h
  next e h1 => exact absurd h (by simp)
  next lastRec h1 =>
    split at h
    next e h2 => exact absurd h (by simp)
    next m h2 =>
      split at h
      next e h3 => exact absurd h (by simp)
      next r h3 =>
        split at h
        next e h4 => exact absurd h (by simp)
        next c h4 =>
          rw [Except.ok.injEq] at h
          refine ⟨m, ?_, ?_, ?_⟩
          · rw [← getLastRecord_ok_iff, h1, transcode_ok_iff.mp h2]
          · rw [← h]
            exact h3
          · rw [← h]
            exact h4

/-- C1: for every pair of tensor descriptors of one deserialize call that
share a record key, the materialized tensors view the identical storage
(same allocation identity), and each record key occurring in the tensor
list is fetched from the container reader exactly once. -/
theorem storage_dedup_aliasing_single_fetch
    (ar : Archive) (m : ModelDef) (out : DeserializeOutput)
    (hmeta : ar.lastRecord = some (.valid m))
    (h : deserialize ar = .ok out) :
    out.tensorTable.length = m.tensors.length
    ∧ (∀ i j, i < m.tensors.length → j < m.tensors.length →
        (m.tensors.getD i defaultTensorDef).data.record_key =
          (m.tensors.getD j defaultTensorDef).data.record_key →
        (out.tensorTable.getD i defaultTensor).storage =
          (out.tensorTable.getD j defaultTensor).storage)
    ∧ (∀ k, out.finalLoadState.fetchLog.count k =
        if k ∈ m.tensors.map (fun t => t.data.record_key) then 1 else 0) := by
  obtain ⟨m', hmeta', hload, -⟩ := deserialize_ok_inv h
  rw [hmeta] at hmeta'
  cases hmeta'
  obtain ⟨hlen, hidx⟩ := loadTensors_getStorage hload
  obtain ⟨⟨hnd, hinlog⟩, hdom⟩ := loadTensors_inv hload fetchInv_init
  refine ⟨hlen, ?_, ?_⟩
  · intro i j hi hj hkey
    have h1 := hidx i hi
    have h2 := hidx j hj
    rw [hkey, h2] at h1
    exact Option.some.inj h1.symm
  · intro k
    rw [List.count_eq_of_nodup hnd]
    have hmem : k ∈ out.finalLoadState.fetchLog ↔
        k ∈ m.tensors.map fun t => t.data.record_key := by
      rw [hinlog k, hdom k]
      simp [initLoadState, assocFind]
    by_cases hk : k ∈ m.tensors.map fun t => t.data.record_key
    · rw [if_pos (hmem.mpr hk), if_pos hk]
    · rw [if_neg (fun hc => hk (hmem.mp hc)), if_neg hk]

def c1Model : ModelDef :=
  ⟨.mk "m" false [] [] ⟨9, 0⟩,
   [⟨[4], [1], 0, .uint8, false, ⟨7, 4⟩⟩, ⟨[2], [2], 0, .uint8, false, ⟨7, 4⟩⟩]⟩

def c1Ar : Archive := ⟨[(7, [1, 2, 3, 4]), (9, [])], some (.valid c1Model)⟩

def c1Tensor0 : Tensor := ⟨⟨0, [1, 2, 3, 4], 4⟩, 0, [4], [1], false⟩

def c1Tensor1 : Tensor := ⟨⟨0, [1, 2, 3, 4], 4⟩, 0, [2], [2], false⟩

def c1Out : DeserializeOutput :=
  ⟨[c1Tensor0, c1Tensor1],
   ⟨[(7, ⟨0, [1, 2, 3, 4], 4⟩)], 1, [7]⟩,
   [.lookup [], .setOptimized [] false, .loadCode [] [] [c1Tensor0, c1Tensor1]],
   []⟩

/-- Witness for C1: an archive with two tensor descriptors sharing record
key 7; both materialized tensors carry the same storage and key 7 appears
exactly once in the fetch log. -/
theorem storage_dedup_aliasing_single_fetch_witness :
    deserialize c1Ar = .ok c1Out
    ∧ (c1Out.tensorTable.getD 0 defaultTensor).storage =
        (c1Out.tensorTable.getD 1 defaultTensor).storage
    ∧ c1Out.finalLoadState.fetchLog.count 7 = 1 := by
  have hh := storage_dedup_aliasing_single_fetch c1Ar c1Model c1Out rfl rfl
  refine ⟨rfl, hh.2.1 0 1 (by decide) (by decide) rfl, ?_⟩
  rw [hh.2.2 7]
  decide

/-- Sequential decomposition of loadTensors over a split of the tensor
list. -/
theorem loadTensors_append (ar : Archive) (l1 l2 : List TensorDef) (s : LoadState) :
    loadTensors ar (l1 ++ l2) s =
      match loadTensors ar l1 s with
      | .error e => .error e
      | .ok r =>
          match loadTensors ar l2 r.2 with
          | .error e => .error e
          | .ok r2 => .ok (r.1 ++ r2.1, r2.2) := by
  induction l1 generalizing s with
  | nil =>
      simp only [List.nil_append, loadTensors]
      cases h2 : loadTensors ar l2 s with
      | error e => rfl
      | ok r2 => rfl
  | cons t rest ih =>
      simp only [List.cons_append, loadTensors]
      cases h1 : loadTensor ar t s with
      | error e => rfl
      | ok r =>
          dsimp only
          simp only [List.append_eq]
          rw [ih r.2]
          cases h3 : loadTensors ar rest r.2 with
          | error e => rfl
          | ok r3 =>
              dsimp only
              cases h4 : loadTensors ar l2 r3.2 with
              | error e => rfl
              | ok r4 => simp

/-- If the last record transcodes to a model whose tensor-table
construction fails, deserialize fails with the same error. -/
theorem deserialize_error_of_loadTensors_error
    {ar : Archive} {m : ModelDef} {e : DeserializeError}
    (hmeta : ar.lastRecord = some (.valid m))
    (hload : loadTensors ar m.tensors initLoadState = .error e) :
    deserialize ar = .error e := by
  unfold deserialize getLastRecord
  rw [hmeta]
  dsimp only [transcode]
  rw [hload]

/-- C2 amended: a fetched-size mismatch is detected exactly on the first
materialization of a record key (when the key is not yet in the
deduplication map): there loadTensor fails with the storage size-mismatch
error, the whole tensor-table construction fails, and the deserialize
call returns that error, so no tensor of the call is usable. References
whose key is already cached reuse the buffer without re-validation. -/
theorem storage_size_mismatch_first_fetch
    (ar : Archive) (ts1 ts2 : List TensorDef) (t : TensorDef) (bytes : List Nat)
    (tt1 : List Tensor) (s1 : LoadState)
    (h1 : loadTensors ar ts1 initLoadState = .ok (tt1, s1))
    (hmiss : assocFind s1.storageMap t.data.record_key = none)
    (hget : getRecordWithKey ar t.data.record_key = some bytes)
    (hne : bytes.length ≠ t.data.expected_byte_size) :
    loadTensor ar t s1 = .error .storageSizeMismatchError
    ∧ loadTensors ar (ts1 ++ t :: ts2) initLoadState = .error .storageSizeMismatchError
    ∧ (∀ m : ModelDef, ar.lastRecord = some (.valid m) →
        m.tensors = ts1 ++ t :: ts2 →
        deserialize ar = .error .storageSizeMismatchError) := by
  have hfail : loadTensor ar t s1 = .error .storageSizeMismatchError := by
    unfold loadTensor
    rw [hmiss]
    dsimp only
    rw [hget]
    dsimp only
    rw [if_neg hne]
  have hlist : loadTensors ar (ts1 ++ t :: ts2) initLoadState =
      .error .storageSizeMismatchError := by
    rw [loadTensors_append, h1]
    show (match loadTensors ar (t :: ts2) s1 with
          | .error e => (.error e : Except DeserializeError (List Tensor × LoadState))
          | .ok r2 => .ok (tt1 ++ r2.1, r2.2)) = _
    unfold loadTensors
    rw [hfail]
  refine ⟨hfail, hlist, fun m hmeta hts => ?_⟩
  exact deserialize_error_of_loadTensors_error hmeta (hts ▸ hlist)

def c2Model : ModelDef :=
  ⟨.mk "m" false [] [] ⟨9, 0⟩,
   [⟨[4], [1], 0, .uint8, false, ⟨7, 4⟩⟩, ⟨[2], [1], 0, .uint8, false, ⟨7, 2⟩⟩]⟩

def c2Ar : Archive := ⟨[(7, [0, 0, 0, 0]), (9, [])], some (.valid c2Model)⟩

/-- Counterexample to C2 as stated: the second tensor descriptor declares
expected_byte_size 2 for record key 7, the record fetched for key 7 has
byte length 4, yet the deserialize call succeeds: the size check is
skipped for a key already present in the deduplication map. -/
theorem storage_size_mismatch_counterexample :
    getRecordWithKey c2Ar 7 = some [0, 0, 0, 0]
    ∧ ((c2Model.tensors.getD 1 defaultTensorDef).data.record_key = 7
        ∧ (c2Model.tensors.getD 1 defaultTensorDef).data.expected_byte_size = 2)
    ∧ ([0, 0, 0, 0] : List Nat).length ≠ 2
    ∧ (deserialize c2Ar).isOk = true := by
  refine ⟨rfl, ⟨rfl, rfl⟩, by decide, by decide⟩

/-- Witness for the amended C2 at a concrete input: a first descriptor
for key 7 succeeds; a later descriptor materializes key 9 for the first
time declaring size 3, but the record for key 9 has 0 bytes, so the whole
call fails with the storage size-mismatch error. -/
theorem storage_size_mismatch_first_fetch_witness :
    loadTensors c2Ar
        [⟨[4], [1], 0, .uint8, false, ⟨7, 4⟩⟩, ⟨[3], [1], 0, .uint8, false, ⟨9, 3⟩⟩]
        initLoadState = .error .storageSizeMismatchError
    ∧ getRecordWithKey c2Ar 9 = some [] := by
  constructor
  · have hh := storage_size_mismatch_first_fetch c2Ar
      [⟨[4], [1], 0, .uint8, false, ⟨7, 4⟩⟩] []
      ⟨[3], [1], 0, .uint8, false, ⟨9, 3⟩⟩ []
      [⟨⟨0, [0, 0, 0, 0], 4⟩, 0, [4], [1], false⟩]
      ⟨[(7, ⟨0, [0, 0, 0, 0], 4⟩)], 1, [7]⟩ rfl rfl rfl (by decide)
    exact hh.2.1
  · rfl

/-- C10: on a first materialization (dedup-map miss) whose fetched size
matches the declared size, the new storage's element count is the fetched
byte length divided by the dtype item size using Nat (floor) division;
divisibility is not required, so trailing remainder bytes are silently
excluded from the element count. -/
theorem storage_numel_floor_division
    (ar : Archive) (t : TensorDef) (s : LoadState) (bytes : List Nat)
    (hmiss : assocFind s.storageMap t.data.record_key = none)
    (hget : getRecordWithKey ar t.data.record_key = some bytes)
    (hlen : bytes.length = t.data.expected_byte_size) :
    loadTensor ar t s =
      .ok (⟨⟨s.nextId, bytes, bytes.length / t.data_type.itemsize⟩,
            t.offset, t.dims, t.strides, t.requires_grad⟩,
           ⟨(t.data.record_key, ⟨s.nextId, bytes, bytes.length / t.data_type.itemsize⟩)
              :: s.storageMap,
            s.nextId + 1, s.fetchLog ++ [t.data.record_key]⟩) := by
  unfold loadTensor
  rw [hmiss]
  dsimp only
  rw [hget]
  dsimp only
  rw [if_pos hlen]

def c10Ar : Archive := ⟨[(3, [0, 1, 2, 3, 4, 5, 6, 7, 8, 9])], none⟩

def c10T : TensorDef := ⟨[2], [1], 0, .float32, true, ⟨3, 10⟩⟩

/-- Witness for C10: a 10-byte record viewed as float32 (item size 4)
yields element count 2 with no error, although 4 does not divide 10. -/
theorem storage_numel_floor_division_witness :
    loadTensor c10Ar c10T initLoadState =
      .ok (⟨⟨0, [0, 1, 2, 3, 4, 5, 6, 7, 8, 9], 2⟩, 0, [2], [1], true⟩,
           ⟨[(3, ⟨0, [0, 1, 2, 3, 4, 5, 6, 7, 8, 9], 2⟩)], 1, [3]⟩)
    ∧ ¬ (4 ∣ 10)
    ∧ (10 : Nat) / 4 = 2 := by
  refine ⟨?_, by decide, by decide⟩
  exact storage_numel_floor_division c10Ar c10T initLoadState
    [0, 1, 2, 3, 4, 5, 6, 7, 8, 9] rfl rfl rfl

/-- C4: a syntactically invalid metadata record fails the deserialize
call with the transcode error, a schema-mismatched one fails it with the
validation error, and a successful call implies the metadata was
schema-valid: the pipeline never proceeds from a default-initialized
model descriptor. -/
theorem metadata_transcode_fail_closed (ar : Archive) :
    (ar.lastRecord = some .invalid → deserialize ar = .error .metadataTranscodeError)
    ∧ (ar.lastRecord = some .mismatched → deserialize ar = .error .schemaValidationError)
    ∧ (∀ out, deserialize ar = .ok out → ∃ m, ar.lastRecord = some (.valid m)) := by
  refine ⟨fun h => ?_, fun h => ?_, fun out h => ?_⟩
  · unfold deserialize getLastRecord
    rw [h]
    rfl
  · unfold deserialize getLastRecord
    rw [h]
    rfl
  · obtain ⟨m, hm, -, -⟩ := deserialize_ok_inv h
    exact ⟨m, hm⟩

/-- Witness for C4 on concrete archives with invalid and mismatched
metadata records. -/
theorem metadata_transcode_fail_closed_witness :
    deserialize ⟨[], some .invalid⟩ = .error .metadataTranscodeError
    ∧ deserialize ⟨[], some .mismatched⟩ = .error .schemaValidationError :=
  ⟨(metadata_transcode_fail_closed ⟨[], some .invalid⟩).1 rfl,
   (metadata_transcode_fail_closed ⟨[], some .mismatched⟩).2.1 rfl⟩

section ConvertLemmas

/-- If some parameter's tensor_id is out of range for the tensor table,
the parameter loop fails with the invalid-tensor-id error. -/
theorem registerParams_error_of_oob {tt : List Tensor} {path : List String}
    {ps : List ParameterDef} (hp : ∃ p ∈ ps, tt.length ≤ p.tensor_id) :
    registerParams tt path ps = .error .invalidTensorIdError := by
  induction ps with
  | nil => simp at hp
  | cons p rest ih =>
      obtain ⟨q, hq, hle⟩ := hp
      rcases List.mem_cons.mp hq with rfl | hmem
      · unfold registerParams
        rw [List.getElem?_eq_none hle]
      · unfold registerParams
        cases hx : tt[p.tensor_id]? with
        | none => rfl
        | some t =>
            dsimp only
            rw [ih ⟨q, hmem, hle⟩]

/-- If every parameter's tensor_id is in range, the parameter loop emits
one registration event per parameter, in order, with the table entry at
tensor_id, the declared name and the declared buffer classification. -/
theorem registerParams_ok_of_inbounds {tt : List Tensor} {path : List String}
    {ps : List ParameterDef} (hp : ∀ p ∈ ps, p.tensor_id < tt.length) :
    registerParams tt path ps =
      .ok (ps.map fun p =>
        .registerParam path p.name (tt.getD p.tensor_id defaultTensor) p.is_buffer) := by
  induction ps with
  | nil => rfl
  | cons p rest ih =>
      have h1 : p.tensor_id < tt.length := hp p (List.mem_cons_self p rest)
      unfold registerParams
      rw [List.getElem?_eq_getElem h1]
      dsimp only
      rw [ih fun q hq => hp q (List.mem_cons_of_mem _ hq)]
      dsimp only
      rw [List.map_cons]
      rw [List.getD_eq_getElem tt defaultTensor h1]

/-- A successful parameter loop determines its events: one registration
per parameter in order. -/
theorem registerParams_ok_char {tt : List Tensor} {path : List String}
    {ps : List ParameterDef} {evs : List Event}
    (h : registerParams tt path ps = .ok evs) :
    evs = ps.map fun p =>
      .registerParam path p.name (tt.getD p.tensor_id defaultTensor) p.is_buffer := by
  induction ps generalizing evs with
  | nil =>
      unfold registerParams at h
      rw [Except.ok.injEq] at h
      rw [← h]
      rfl
  | cons p rest ih =>
      unfold registerParams at h
      split at h
      next hx => exact absurd h (by simp)
      next t hx =>
        split at h
        next e hrest => exact absurd h (by simp)
        next evs2 hrest =>
          rw [Except.ok.injEq] at h
          rw [← h, ih hrest, List.map_cons]
          have h1 : p.tensor_id < tt.length := by
            by_contra hc
            rw [List.getElem?_eq_none (Nat.le_of_not_lt hc)] at hx
            exact Option.noConfusion hx
          rw [List.getElem?_eq_getElem h1] at hx
          rw [List.getD_eq_getElem tt defaultTensor h1, Option.some.inj hx]

/-- C5: a ParameterDescriptor whose tensor_id is out of range for the
tensor table makes the parameter loop, and the enclosing convertModule,
fail with the invalid-tensor-id error, without registering that
parameter; when every tensor_id is in range, each parameter is registered
with the table entry at its tensor_id, under its declared name, and with
its declared buffer classification. -/
theorem parameter_tensor_id_checked (tt : List Tensor) (path : List String)
    (ps : List ParameterDef) :
    ((∃ p ∈ ps, tt.length ≤ p.tensor_id) →
      registerParams tt path ps = .error .invalidTensorIdError)
    ∧ ((∀ p ∈ ps, p.tensor_id < tt.length) →
      registerParams tt path ps = .ok (ps.map fun p =>
        .registerParam path p.name (tt.getD p.tensor_id defaultTensor) p.is_buffer))
    ∧ (∀ (ar : Archive) (n : String) (opt : Bool) (arena : StorageRef),
        (∃ p ∈ ps, tt.length ≤ p.tensor_id) →
        convertModule ar tt (.mk n opt [] ps arena) path = .error .invalidTensorIdError) := by
  refine ⟨fun hp => registerParams_error_of_oob hp,
          fun hp => registerParams_ok_of_inbounds hp,
          fun ar n opt arena hp => ?_⟩
  unfold convertModule convertSubmodules
  dsimp only
  rw [registerParams_error_of_oob hp]

/-- Witness for C5: a table of one tensor with a parameter asking for
index 5 fails, both in the loop and in convertModule; an in-range
parameter is registered as declared. -/
theorem parameter_tensor_id_checked_witness :
    registerParams [defaultTensor] [] [⟨"w", 5, false⟩] = .error .invalidTensorIdError
    ∧ convertModule ⟨[], none⟩ [defaultTensor] (.mk "m" true [] [⟨"w", 5, false⟩] ⟨0, 0⟩) []
        = .error .invalidTensorIdError
    ∧ registerParams [defaultTensor] [] [⟨"b", 0, true⟩]
        = .ok [.registerParam [] "b" defaultTensor true] := by
  have hh := parameter_tensor_id_checked [defaultTensor] [] [⟨"w", 5, false⟩]
  have hg := parameter_tensor_id_checked [defaultTensor] [] [⟨"b", 0, true⟩]
  refine ⟨hh.1 ⟨⟨"w", 5, false⟩, by simp, by decide⟩,
          hh.2.2 ⟨[], none⟩ "m" true ⟨0, 0⟩ ⟨⟨"w", 5, false⟩, by simp, by decide⟩,
          ?_⟩
  have := hg.2.1 (by intro p hp; rw [List.mem_singleton] at hp; rw [hp]; decide)
  simpa using this

/-- Inversion of a successful code-arena load: the record was present,
its size matched the declaration, and the produced event hands exactly
those bytes and the tensor table to the loader. -/
theorem loadArena_ok_inv {ar : Archive} {tt : List Tensor} {path : List String}
    {arena : StorageRef} {ev : Event} (h : loadArena ar tt path arena = .ok ev) :
    ∃ bytes, getRecordWithKey ar arena.record_key = some bytes
      ∧ bytes.length = arena.expected_byte_size ∧ ev = .loadCode path bytes tt := by
  unfold loadArena at h
  split at h
  next => exact absurd h (by simp)
  next bytes hget =>
    split at h
    next he =>
      rw [Except.ok.injEq] at h
      exact ⟨bytes, hget, he, h.symm⟩
    next => exact absurd h (by simp)

/-- C6: the code-arena record is fetched by key: an absent record fails
with the archive read error; a fetched byte length differing from the
declared size fails with the code-arena size-mismatch error; only on a
size match is the loadCode event carrying the raw bytes and the tensor
table produced, and convertModule forwards each of these failures. -/
theorem code_arena_checked (ar : Archive) (tt : List Tensor) (path : List String)
    (arena : StorageRef) :
    (getRecordWithKey ar arena.record_key = none →
      loadArena ar tt path arena = .error .archiveReadError)
    ∧ (∀ bytes, getRecordWithKey ar arena.record_key = some bytes →
        bytes.length ≠ arena.expected_byte_size →
        loadArena ar tt path arena = .error .codeArenaSizeMismatchError)
    ∧ (∀ bytes, getRecordWithKey ar arena.record_key = some bytes →
        bytes.length = arena.expected_byte_size →
        loadArena ar tt path arena = .ok (.loadCode path bytes tt))
    ∧ (∀ ev, loadArena ar tt path arena = .ok ev →
        ∃ bytes, getRecordWithKey ar arena.record_key = some bytes
          ∧ bytes.length = arena.expected_byte_size ∧ ev = .loadCode path bytes tt)
    ∧ (∀ (n : String) (opt : Bool) (e : DeserializeError),
        loadArena ar tt path arena = .error e →
        convertModule ar tt (.mk n opt [] [] arena) path = .error e) := by
  refine ⟨fun h => ?_, fun bytes h hne => ?_, fun bytes h he => ?_,
          fun ev h => ?_, fun n opt e h => ?_⟩
  · unfold loadArena
    rw [h]
  · unfold loadArena
    rw [h]
    dsimp only
    rw [if_neg hne]
  · unfold loadArena
    rw [h]
    dsimp only
    rw [if_pos he]
  · exact loadArena_ok_inv h
  · unfold convertModule convertSubmodules registerParams
    dsimp only
    rw [h]

def c6Ar : Archive := ⟨[(2, [5, 5, 5])], none⟩

/-- Witness for C6 at concrete inputs: a missing arena key fails with the
read error; an arena record of 3 bytes declared as 100 fails with the
code-arena size mismatch, also through convertModule; a correct
declaration hands bytes and table to the loader. -/
theorem code_arena_checked_witness :
    loadArena c6Ar [] [] ⟨1, 0⟩ = .error .archiveReadError
    ∧ loadArena c6Ar [] [] ⟨2, 100⟩ = .error .codeArenaSizeMismatchError
    ∧ convertModule c6Ar [] (.mk "m" false [] [] ⟨2, 100⟩) []
        = .error .codeArenaSizeMismatchError
    ∧ loadArena c6Ar [] [] ⟨2, 3⟩ = .ok (.loadCode [] [5, 5, 5] []) := by
  have h1 := code_arena_checked c6Ar [] [] ⟨1, 0⟩
  have h2 := code_arena_checked c6Ar [] [] ⟨2, 100⟩
  have h3 := code_arena_checked c6Ar [] [] ⟨2, 3⟩
  refine ⟨h1.1 rfl, h2.2.1 [5, 5, 5] rfl (by decide), ?_, h3.2.2.1 [5, 5, 5] rfl rfl⟩
  exact h2.2.2.2.2 "m" false .codeArenaSizeMismatchError (h2.2.1 [5, 5, 5] rfl (by decide))

end ConvertLemmas

section PipelineLemmas

variable {ar : Archive} {ts : List TensorDef} {s s' : LoadState} {tt : List Tensor}

/-- Each materialized tensor of the table carries the view fields of the
descriptor at the same position. -/
theorem loadTensors_fields (h : loadTensors ar ts s = .ok (tt, s')) :
    ∀ i, i < ts.length →
      (tt.getD i defaultTensor).offset = (ts.getD i defaultTensorDef).offset
      ∧ (tt.getD i defaultTensor).dims = (ts.getD i defaultTensorDef).dims
      ∧ (tt.getD i defaultTensor).strides = (ts.getD i defaultTensorDef).strides
      ∧ (tt.getD i defaultTensor).requires_grad
          = (ts.getD i defaultTensorDef).requires_grad := by
  induction ts generalizing s tt s' with
  | nil => exact fun i hi => absurd hi (Nat.not_lt_zero i)
  | cons t rest ih =>
      unfold loadTensors at h
      split at h
      next e hr => exact absurd h (by simp)
      next r hr =>
        obtain ⟨v1, s1⟩ := r
        split at h
        next e hrest => exact absurd h (by simp)
        next r2 hrest =>
          obtain ⟨tt2, s2⟩ := r2
          rw [Except.ok.injEq, Prod.mk.injEq] at h
          obtain ⟨htt, hs⟩ := h
          subst hs
          intro i hi
          match i with
          | 0 =>
              have hf := loadTensor_fields hr
              rw [← htt]
              simpa using hf
          | Nat.succ j =>
              have hj : j < rest.length := Nat.lt_of_succ_lt_succ hi
              have := ih hrest j hj
              rw [← htt]
              simpa using this

/-- The first external call of convertModule is the module lookup at the
entry stack. -/
theorem convertModule_head {tt : List Tensor} {d : ModuleDef} {p stk : List String}
    {tr : List Event} (h : convertModule ar tt d p = .ok (tr, stk)) :
    tr.head? = some (.lookup p) := by
  cases d with
  | mk n opt subs params arena =>
      unfold convertModule at h
      split at h
      next => exact absurd h (by simp)
      next sub hsub =>
        split at h
        next => exact absurd h (by simp)
        next pe hpe =>
          split at h
          next => exact absurd h (by simp)
          next ce hce =>
            rw [Except.ok.injEq, Prod.mk.injEq] at h
            rw [← h.1]
            rfl

/-- C7: a successful deserialize call performed the fixed pipeline: the
last record was fetched and transcoded to a model descriptor; the tensor
table was materialized from the model's tensor list in list order (one
entry per descriptor, at the same position, carrying that descriptor's
view fields — so the position index is the tensor_id the parameter loop
indexes with); and the root module was then converted starting from the
empty path, its first lookup being the empty path. -/
theorem deserialize_pipeline_order (ar : Archive) (out : DeserializeOutput)
    (h : deserialize ar = .ok out) :
    ∃ m : ModelDef,
      ar.lastRecord = some (.valid m)
      ∧ loadTensors ar m.tensors initLoadState = .ok (out.tensorTable, out.finalLoadState)
      ∧ out.tensorTable.length = m.tensors.length
      ∧ (∀ i, i < m.tensors.length →
          (out.tensorTable.getD i defaultTensor).offset
              = (m.tensors.getD i defaultTensorDef).offset
          ∧ (out.tensorTable.getD i defaultTensor).dims
              = (m.tensors.getD i defaultTensorDef).dims
          ∧ (out.tensorTable.getD i defaultTensor).strides
              = (m.tensors.getD i defaultTensorDef).strides
          ∧ (out.tensorTable.getD i defaultTensor).requires_grad
              = (m.tensors.getD i defaultTensorDef).requires_grad)
      ∧ convertModule ar out.tensorTable m.main_module [] = .ok (out.trace, out.finalStack)
      ∧ out.trace.head? = some (.lookup []) := by
  obtain ⟨m, hmeta, hload, hconv⟩ := deserialize_ok_inv h
  exact ⟨m, hmeta, hload, (loadTensors_getStorage hload).1, loadTensors_fields hload,
         hconv, convertModule_head hconv⟩

def c7Model : ModelDef :=
  ⟨.mk "m" true [] [] ⟨9, 0⟩, [⟨[1], [1], 0, .int64, false, ⟨4, 8⟩⟩]⟩

def c7Ar : Archive :=
  ⟨[(4, [1, 2, 3, 4, 5, 6, 7, 8]), (9, [])], some (.valid c7Model)⟩

def c7Tensor : Tensor := ⟨⟨0, [1, 2, 3, 4, 5, 6, 7, 8], 1⟩, 0, [1], [1], false⟩

def c7Out : DeserializeOutput :=
  ⟨[c7Tensor],
   ⟨[(4, ⟨0, [1, 2, 3, 4, 5, 6, 7, 8], 1⟩)], 1, [4]⟩,
   [.lookup [], .setOptimized [] true, .loadCode [] [] [c7Tensor]],
   []⟩

/-- Witness for C7 at a concrete archive: the call succeeds, the table
has one tensor per descriptor, and the trace starts with the lookup of
the empty (root) path. -/
theorem deserialize_pipeline_order_witness :
    deserialize c7Ar = .ok c7Out
    ∧ c7Out.tensorTable.length = c7Model.tensors.length
    ∧ c7Out.trace.head? = some (.lookup []) := by
  obtain ⟨m, hmeta, hload, hlen, hfields, hconv, hhead⟩ :=
    deserialize_pipeline_order c7Ar c7Out rfl
  have hm : m = c7Model := by
    have : some (MetaJson.valid c7Model) = some (MetaJson.valid m) := hmeta
    cases this
    rfl
  refine ⟨rfl, ?_, hhead⟩
  rw [hm] at hlen
  exact hlen

end PipelineLemmas

mutual

/-- convertModule restores the module stack: the final stack equals the
entry stack (each child push is matched by its pop). -/
theorem convertModule_stack {ar : Archive} {tt : List Tensor} {d : ModuleDef}
    {p stk : List String} {tr : List Event}
    (h : convertModule ar tt d p = .ok (tr, stk)) : stk = p := by
  cases d with
  | mk n opt subs params arena =>
      unfold convertModule at h
      split at h
      next => exact absurd h (by simp)
      next sub hsub =>
        split at h
        next => exact absurd h (by simp)
        next pe hpe =>
          split at h
          next => exact absurd h (by simp)
          next ce hce =>
            rw [Except.ok.injEq, Prod.mk.injEq] at h
            rw [← h.2]
            exact convertSubmodules_stack (by rw [hsub])

/-- The submodule loop restores the module stack. -/
theorem convertSubmodules_stack {ar : Archive} {tt : List Tensor} {ds : List ModuleDef}
    {p stk : List String} {tr : List Event}
    (h : convertSubmodules ar tt ds p = .ok (tr, stk)) : stk = p := by
  cases ds with
  | nil =>
      unfold convertSubmodules at h
      rw [Except.ok.injEq, Prod.mk.injEq] at h
      exact h.2.symm
  | cons d rest =>
      unfold convertSubmodules at h
      split at h
      next => exact absurd h (by simp)
      next r1 h1 =>
        split at h
        next => exact absurd h (by simp)
        next r2 h2 =>
          rw [Except.ok.injEq, Prod.mk.injEq] at h
          have hs1 : r1.2 = p ++ [d.name] := convertModule_stack (by rw [h1])
          have hs2 : stk = r1.2.dropLast := by
            rw [← h.2]
            exact convertSubmodules_stack (by rw [h2])
          rw [hs2, hs1, List.dropLast_concat]

end

theorem lookupPathsOf_append (l1 l2 : List Event) :
    lookupPathsOf (l1 ++ l2) = lookupPathsOf l1 ++ lookupPathsOf l2 := by
  unfold lookupPathsOf
  rw [List.filterMap_append]

theorem lookupPathsOf_params (tt : List Tensor) (path : List String)
    (ps : List ParameterDef) :
    lookupPathsOf (ps.map fun p =>
      .registerParam path p.name (tt.getD p.tensor_id defaultTensor) p.is_buffer) = [] := by
  induction ps with
  | nil => rfl
  | cons p rest ih =>
      unfold lookupPathsOf at ih ⊢
      rw [List.map_cons, List.filterMap_cons]
      exact ih

mutual

/-- The lookup events of a successful convertModule trace list exactly
the pre-order, left-to-right module paths of the descriptor tree. -/
theorem convertModule_lookupPaths {ar : Archive} {tt : List Tensor} {d : ModuleDef}
    {p stk : List String} {tr : List Event}
    (h : convertModule ar tt d p = .ok (tr, stk)) :
    lookupPathsOf tr = preorderPaths d p := by
  cases d with
  | mk n opt subs params arena =>
      unfold convertModule at h
      split at h
      next => exact absurd h (by simp)
      next sub hsub =>
        split at h
        next => exact absurd h (by simp)
        next pe hpe =>
          split at h
          next => exact absurd h (by simp)
          next ce hce =>
            rw [Except.ok.injEq, Prod.mk.injEq] at h
            rw [← h.1]
            have hsubs := convertSubmodules_lookupPaths
              (show convertSubmodules ar tt subs p = .ok (sub.1, sub.2) by rw [hsub])
            have hpe' := registerParams_ok_char hpe
            obtain ⟨bytes, -, -, hc⟩ := loadArena_ok_inv hce
            unfold lookupPathsOf
            rw [List.filterMap_cons, List.filterMap_cons]
            dsimp only
            rw [List.filterMap_append, List.filterMap_append]
            have h1 : List.filterMap
                (fun e => match e with | Event.lookup q => some q | _ => none) pe = [] := by
              rw [hpe']
              exact lookupPathsOf_params tt p params
            have h2 : List.filterMap
                (fun e => match e with | Event.lookup q => some q | _ => none) [ce] = [] := by
              rw [hc]
              rfl
            rw [h1, h2, List.append_nil, List.append_nil]
            unfold lookupPathsOf at hsubs
            rw [hsubs]
            rfl

/-- The lookup events of the submodule loop list the pre-order paths of
the child descriptors, left to right. -/
theorem convertSubmodules_lookupPaths {ar : Archive} {tt : List Tensor}
    {ds : List ModuleDef} {p stk : List String} {tr : List Event}
    (h : convertSubmodules ar tt ds p = .ok (tr, stk)) :
    lookupPathsOf tr = preorderPathsList ds p := by
  cases ds with
  | nil =>
      unfold convertSubmodules at h
      rw [Except.ok.injEq, Prod.mk.injEq] at h
      rw [← h.1]
      rfl
  | cons d rest =>
      unfold convertSubmodules at h
      split at h
      next => exact absurd h (by simp)
      next r1 h1 =>
        split at h
        next => exact absurd h (by simp)
        next r2 h2 =>
          rw [Except.ok.injEq, Prod.mk.injEq] at h
          have hstk : r1.2 = p ++ [d.name] := convertModule_stack (by rw [h1])
          have hdrop : r1.2.dropLast = p := by rw [hstk, List.dropLast_concat]
          rw [hdrop] at h2
          have ha := convertModule_lookupPaths
            (show convertModule ar tt d (p ++ [d.name]) = .ok (r1.1, r1.2) by rw [h1])
          have hb := convertSubmodules_lookupPaths
            (show convertSubmodules ar tt rest p = .ok (r2.1, r2.2) by rw [h2])
          rw [← h.1, lookupPathsOf_append, ha, hb]
          rfl

end

section ModuleTreeAlgebra

theorem assocFind_nil {α β : Type} [DecidableEq α] (a : α) :
    assocFind ([] : List (α × β)) a = none := rfl

theorem assocFind_cons {α β : Type} [DecidableEq α] (k : α) (v : β)
    (l : List (α × β)) (a : α) :
    assocFind ((k, v) :: l) a = if k = a then some v else assocFind l a := rfl

theorem assocReplace_cons {β : Type} (k : String) (v : β) (l : List (String × β))
    (n : String) (y : β) :
    assocReplace ((k, v) :: l) n y
      = if k = n then (k, y) :: l else (k, v) :: assocReplace l n y := rfl

theorem updateAt_nil (f : Module → Module) (M : Module) : updateAt f M [] = f M := rfl

theorem updateAt_cons_found (f : Module → Module) (o : Bool)
    (subs : List (String × Module)) (ps : List (String × Tensor × Bool))
    (n : String) (q : List String) (child : Module)
    (h : assocFind subs n = some child) :
    updateAt f (.mk o subs ps) (n :: q)
      = .mk o (assocReplace subs n (updateAt f child q)) ps := by
  conv_lhs => rw [updateAt]
  rw [h]

theorem updateAt_cons_missing (f : Module → Module) (o : Bool)
    (subs : List (String × Module)) (ps : List (String × Tensor × Bool))
    (n : String) (q : List String)
    (h : assocFind subs n = none) :
    updateAt f (.mk o subs ps) (n :: q)
      = .mk o (subs ++ [(n, updateAt f emptyModule q)]) ps := by
  conv_lhs => rw [updateAt]
  rw [h]

theorem assocFind_replace_self {β : Type} (l : List (String × β)) (n : String) (x : β)
    (h : (assocFind l n).isSome = true) :
    assocFind (assocReplace l n x) n = some x := by
  induction l with
  | nil => simp [assocFind_nil] at h
  | cons kv rest ih =>
      obtain ⟨k, v⟩ := kv
      by_cases hk : k = n
      · rw [assocReplace_cons, if_pos hk, assocFind_cons, if_pos hk]
      · rw [assocFind_cons, if_neg hk] at h
        rw [assocReplace_cons, if_neg hk, assocFind_cons, if_neg hk]
        exact ih h

theorem assocReplace_replace {β : Type} (l : List (String × β)) (n : String) (x y : β) :
    assocReplace (assocReplace l n x) n y = assocReplace l n y := by
  induction l with
  | nil => rfl
  | cons kv rest ih =>
      obtain ⟨k, v⟩ := kv
      by_cases hk : k = n
      · rw [assocReplace_cons, if_pos hk, assocReplace_cons, if_pos hk,
            assocReplace_cons, if_pos hk]
      · rw [assocReplace_cons, if_neg hk, assocReplace_cons, if_neg hk,
            assocReplace_cons, if_neg hk, ih]

theorem assocFind_append_some {β : Type} (l : List (String × β)) (n : String) (x : β)
    (h : assocFind l n = none) : assocFind (l ++ [(n, x)]) n = some x := by
  induction l with
  | nil => simp [assocFind_cons]
  | cons kv rest ih =>
      obtain ⟨k, v⟩ := kv
      rw [assocFind_cons] at h
      by_cases hk : k = n
      · rw [if_pos hk] at h
        exact Option.noConfusion h
      · rw [if_neg hk] at h
        rw [List.cons_append, assocFind_cons, if_neg hk]
        exact ih h

theorem assocFind_append_ne {β : Type} (l : List (String × β)) (n m : String) (x : β)
    (h : assocFind l n = none) (hne : m ≠ n) :
    assocFind (l ++ [(m, x)]) n = none := by
  induction l with
  | nil => simp [assocFind_cons, assocFind_nil, hne]
  | cons kv rest ih =>
      obtain ⟨k, v⟩ := kv
      rw [assocFind_cons] at h
      by_cases hk : k = n
      · rw [if_pos hk] at h
        exact Option.noConfusion h
      · rw [if_neg hk] at h
        rw [List.cons_append, assocFind_cons, if_neg hk]
        exact ih h

theorem assocReplace_append {β : Type} (l : List (String × β)) (n : String) (x y : β)
    (h : assocFind l n = none) :
    assocReplace (l ++ [(n, x)]) n y = l ++ [(n, y)] := by
  induction l with
  | nil => simp [assocReplace_cons]
  | cons kv rest ih =>
      obtain ⟨k, v⟩ := kv
      rw [assocFind_cons] at h
      by_cases hk : k = n
      · rw [if_pos hk] at h
        exact Option.noConfusion h
      · rw [if_neg hk] at h
        rw [List.cons_append, assocReplace_cons, if_neg hk, ih h, List.cons_append]

theorem updateAt_append (f : Module → Module) (M : Module) (q r : List String) :
    updateAt f M (q ++ r) = updateAt (fun node => updateAt f node r) M q := by
  induction q generalizing M with
  | nil => rfl
  | cons n q' ih =>
      cases M with
      | mk o subs ps =>
          rw [List.cons_append]
          cases hfind : assocFind subs n with
          | some child =>
              rw [updateAt_cons_found _ _ _ _ _ _ _ hfind,
                  updateAt_cons_found _ _ _ _ _ _ _ hfind, ih child]
          | none =>
              rw [updateAt_cons_missing _ _ _ _ _ _ hfind,
                  updateAt_cons_missing _ _ _ _ _ _ hfind, ih emptyModule]

theorem updateAt_updateAt (f g : Module → Module) (M : Module) (q : List String) :
    updateAt g (updateAt f M q) q = updateAt (fun node => g (f node)) M q := by
  induction q generalizing M with
  | nil => rfl
  | cons n q' ih =>
      cases M with
      | mk o subs ps =>
          cases hfind : assocFind subs n with
          | some child =>
              rw [updateAt_cons_found _ _ _ _ _ _ _ hfind,
                  updateAt_cons_found _ _ _ _ _ _ _
                    (assocFind_replace_self subs n _ (by rw [hfind]; rfl)),
                  assocReplace_replace, ih child,
                  updateAt_cons_found _ _ _ _ _ _ _ hfind]
          | none =>
              rw [updateAt_cons_missing _ _ _ _ _ _ hfind,
                  updateAt_cons_found _ _ _ _ _ _ _ (assocFind_append_some subs n _ hfind),
                  assocReplace_append subs n _ _ hfind, ih emptyModule,
                  updateAt_cons_missing _ _ _ _ _ _ hfind]

/-- The submodule loop's effect on the tree: each child's local
transformation applied at its child path, left to right. -/
def localChildrenAt (tt : List Tensor) (p : List String) :
    List ModuleDef → Module → Module
  | [], M => M
  | d :: ds, M =>
      localChildrenAt tt p ds (updateAt (localTransform tt d) M (p ++ [d.name]))

theorem localChildrenAt_updateAt (tt : List Tensor) (p : List String)
    (ds : List ModuleDef) (g : Module → Module) (M : Module) :
    localChildrenAt tt p ds (updateAt g M p)
      = updateAt (fun node => localChildren tt ds (g node)) M p := by
  induction ds generalizing g with
  | nil => rfl
  | cons d rest ih =>
      show localChildrenAt tt p rest
          (updateAt (localTransform tt d) (updateAt g M p) (p ++ [d.name])) = _
      rw [updateAt_append, updateAt_updateAt, ih]
      rfl

theorem foldl_param_events (tt : List Tensor) (p : List String)
    (ps : List ParameterDef) (g : Module → Module) (M : Module) :
    List.foldl applyEvent (updateAt g M p)
      (ps.map fun pr =>
        .registerParam p pr.name (tt.getD pr.tensor_id defaultTensor) pr.is_buffer)
      = updateAt (fun node => addParamsLocal tt ps (g node)) M p := by
  induction ps generalizing g with
  | nil => rfl
  | cons pr rest ih =>
      rw [List.map_cons, List.foldl_cons]
      have e1 : applyEvent (updateAt g M p)
          (.registerParam p pr.name (tt.getD pr.tensor_id defaultTensor) pr.is_buffer)
          = updateAt (fun node =>
              Module.addParam pr.name (tt.getD pr.tensor_id defaultTensor) pr.is_buffer
                (g node)) M p := by
        show updateAt
            (Module.addParam pr.name (tt.getD pr.tensor_id defaultTensor) pr.is_buffer)
            (updateAt g M p) p = _
        rw [updateAt_updateAt]
      rw [e1, ih]
      rfl

end ModuleTreeAlgebra

mutual

/-- The trace of one convertModule call, interpreted over any module
tree, performs exactly the local transformation of its descriptor at its
entry path. -/
theorem convertModule_fold {ar : Archive} {tt : List Tensor} {d : ModuleDef}
    {p stk : List String} {tr : List Event}
    (h : convertModule ar tt d p = .ok (tr, stk)) (M : Module) :
    tr.foldl applyEvent M = updateAt (localTransform tt d) M p := by
  cases d with
  | mk n opt subs params arena =>
      unfold convertModule at h
      split at h
      next => exact absurd h (by simp)
      next sub hsub =>
        split at h
        next => exact absurd h (by simp)
        next pe hpe =>
          split at h
          next => exact absurd h (by simp)
          next ce hce =>
            rw [Except.ok.injEq, Prod.mk.injEq] at h
            rw [← h.1]
            rw [List.foldl_cons, List.foldl_cons]
            have e1 : applyEvent (applyEvent M (.lookup p)) (.setOptimized p opt)
                = updateAt (Module.withOptimized opt) M p := by
              show updateAt (Module.withOptimized opt) (updateAt id M p) p = _
              rw [updateAt_updateAt]
              rfl
            rw [e1, List.foldl_append, List.foldl_append]
            rw [convertSubmodules_fold
              (show convertSubmodules ar tt subs p = .ok (sub.1, sub.2) by rw [hsub]) _]
            rw [localChildrenAt_updateAt]
            rw [registerParams_ok_char hpe]
            rw [foldl_param_events]
            obtain ⟨bytes, -, -, hc⟩ := loadArena_ok_inv hce
            rw [hc]
            rfl

/-- The trace of the submodule loop, interpreted over any module tree,
performs the children's local transformations at their child paths, left
to right. -/
theorem convertSubmodules_fold {ar : Archive} {tt : List Tensor} {ds : List ModuleDef}
    {p stk : List String} {tr : List Event}
    (h : convertSubmodules ar tt ds p = .ok (tr, stk)) (M : Module) :
    tr.foldl applyEvent M = localChildrenAt tt p ds M := by
  cases ds with
  | nil =>
      unfold convertSubmodules at h
      rw [Except.ok.injEq, Prod.mk.injEq] at h
      rw [← h.1]
      rfl
  | cons d rest =>
      unfold convertSubmodules at h
      split at h
      next => exact absurd h (by simp)
      next r1 h1 =>
        split at h
        next => exact absurd h (by simp)
        next r2 h2 =>
          rw [Except.ok.injEq, Prod.mk.injEq] at h
          have hstk : r1.2 = p ++ [d.name] := convertModule_stack (by rw [h1])
          have hdrop : r1.2.dropLast = p := by rw [hstk, List.dropLast_concat]
          rw [hdrop] at h2
          rw [← h.1, List.foldl_append]
          rw [convertModule_fold
            (show convertModule ar tt d (p ++ [d.name]) = .ok (r1.1, r1.2) by rw [h1]) M]
          rw [convertSubmodules_fold
            (show convertSubmodules ar tt rest p = .ok (r2.1, r2.2) by rw [h2]) _]
          rfl

end

theorem nodupStr_cons {s : String} {rest : List String}
    (h : nodupStr (s :: rest) = true) : s ∉ rest ∧ nodupStr rest = true := by
  unfold nodupStr at h
  split at h
  next => exact absurd h (by simp)
  next hmem => exact ⟨hmem, h⟩

theorem noDupSiblings_parts {n : String} {opt : Bool} {subs : List ModuleDef}
    {params : List ParameterDef} {arena : StorageRef}
    (h : noDupSiblings (.mk n opt subs params arena) = true) :
    nodupStr (subs.map ModuleDef.name) = true ∧ noDupSiblingsList subs = true := by
  unfold noDupSiblings at h
  rw [Bool.and_eq_true] at h
  exact h

theorem noDupSiblingsList_parts {d : ModuleDef} {ds : List ModuleDef}
    (h : noDupSiblingsList (d :: ds) = true) :
    noDupSiblings d = true ∧ noDupSiblingsList ds = true := by
  unfold noDupSiblingsList at h
  rw [Bool.and_eq_true] at h
  exact h

theorem addParamsLocal_mk (tt : List Tensor) (ps : List ParameterDef) (o : Bool)
    (subs : List (String × Module)) (pl : List (String × Tensor × Bool)) :
    addParamsLocal tt ps (.mk o subs pl)
      = .mk o subs (pl ++ ps.map fun p =>
          (p.name, tt.getD p.tensor_id defaultTensor, p.is_buffer)) := by
  induction ps generalizing pl with
  | nil => simp [addParamsLocal]
  | cons p rest ih =>
      show addParamsLocal tt rest
        (.mk o subs (pl ++ [(p.name, tt.getD p.tensor_id defaultTensor, p.is_buffer)])) = _
      rw [ih, List.append_assoc]
      rfl

mutual

/-- On a fresh (empty) module node, the local transformation of a
descriptor with pairwise-distinct sibling names produces exactly the
module tree the descriptor denotes. -/
theorem localTransform_emptyModule (tt : List Tensor) (d : ModuleDef)
    (hnd : noDupSiblings d = true) :
    localTransform tt d emptyModule = buildModule tt d := by
  cases d with
  | mk n opt subs params arena =>
      obtain ⟨h1, h2⟩ := noDupSiblings_parts hnd
      show addParamsLocal tt params
        (localChildren tt subs (Module.withOptimized opt emptyModule)) = _
      rw [show Module.withOptimized opt emptyModule = Module.mk opt [] [] from rfl]
      rw [localChildren_fresh tt subs opt [] [] (fun s hs => rfl) h1 h2]
      rw [addParamsLocal_mk, List.nil_append, List.nil_append]
      rfl

/-- Folding fresh-named children onto a node appends one built child per
descriptor, in order. -/
theorem localChildren_fresh (tt : List Tensor) (ds : List ModuleDef) (o : Bool)
    (subs0 : List (String × Module)) (pl : List (String × Tensor × Bool))
    (hfresh : ∀ s ∈ ds, assocFind subs0 s.name = none)
    (hnd : nodupStr (ds.map ModuleDef.name) = true)
    (hrec : noDupSiblingsList ds = true) :
    localChildren tt ds (.mk o subs0 pl) = .mk o (subs0 ++ buildModuleList tt ds) pl := by
  cases ds with
  | nil =>
      show Module.mk o subs0 pl = _
      rw [show buildModuleList tt [] = [] from rfl, List.append_nil]
  | cons d rest =>
      obtain ⟨hd, hrest⟩ := noDupSiblingsList_parts hrec
      rw [List.map_cons] at hnd
      obtain ⟨hnotin, hnd'⟩ := nodupStr_cons hnd
      show localChildren tt rest
        (updateAt (localTransform tt d) (.mk o subs0 pl) [d.name]) = _
      rw [updateAt_cons_missing _ _ _ _ _ _ (hfresh d (List.mem_cons_self d rest)),
          updateAt_nil, localTransform_emptyModule tt d hd]
      have hfresh' : ∀ s ∈ rest,
          assocFind (subs0 ++ [(d.name, buildModule tt d)]) s.name = none := by
        intro s hs
        refine assocFind_append_ne subs0 s.name d.name _
          (hfresh s (List.mem_cons_of_mem d hs)) ?_
        intro he
        exact hnotin (by rw [he]; exact List.mem_map_of_mem ModuleDef.name hs)
      rw [localChildren_fresh tt rest o (subs0 ++ [(d.name, buildModule tt d)]) pl
            hfresh' hnd' hrest]
      rw [List.append_assoc]
      rfl

end

mutual

/-- The module tree denoted by a descriptor has the descriptor's shape:
same child order, same names. -/
theorem modShape_buildModule (tt : List Tensor) (d : ModuleDef) :
    modShape (buildModule tt d) = descShape d := by
  cases d with
  | mk n opt subs params arena =>
      show Shape.node (modShapeList (buildModuleList tt subs))
        = Shape.node (descShapeList subs)
      rw [modShapeList_buildModuleList tt subs]

theorem modShapeList_buildModuleList (tt : List Tensor) (ds : List ModuleDef) :
    modShapeList (buildModuleList tt ds) = descShapeList ds := by
  cases ds with
  | nil => rfl
  | cons d rest =>
      show (d.name, modShape (buildModule tt d)) :: modShapeList (buildModuleList tt rest)
        = (d.name, descShape d) :: descShapeList rest
      rw [modShape_buildModule tt d, modShapeList_buildModuleList tt rest]

end

theorem path_extend_ne (p : List String) (x : String) (r : List String) :
    p ++ [x] ++ r ≠ p := by
  intro h
  have h2 := congrArg List.length h
  simp only [List.length_append, List.length_cons, List.length_nil] at h2
  omega

theorem path_extend_inj {p : List String} {a b : String} {r r' : List String}
    (h : p ++ [a] ++ r = p ++ [b] ++ r') : a = b := by
  rw [List.append_assoc, List.append_assoc] at h
  have h2 := List.append_cancel_left h
  have h3 := congrArg List.head? h2
  simpa using h3

theorem filter_eq_nil_of_none {α : Type} (pf : α → Bool) (l : List α)
    (h : ∀ a ∈ l, pf a = false) : l.filter pf = [] := by
  induction l with
  | nil => rfl
  | cons a rest ih =>
      rw [List.filter_cons_of_neg (by rw [h a (List.mem_cons_self a rest)]; simp)]
      exact ih fun x hx => h x (List.mem_cons_of_mem a hx)

theorem filter_eq_self_of_all {α : Type} (pf : α → Bool) (l : List α)
    (h : ∀ a ∈ l, pf a = true) : l.filter pf = l := by
  induction l with
  | nil => rfl
  | cons a rest ih =>
      rw [List.filter_cons_of_pos (h a (List.mem_cons_self a rest))]
      rw [ih fun x hx => h x (List.mem_cons_of_mem a hx)]

theorem filterPath_cons_eq (q : List String) (e : Event) (l : List Event)
    (he : eventPath e = q) :
    List.filter (fun x => eventPath x == q) (e :: l)
      = e :: List.filter (fun x => eventPath x == q) l := by
  have hb : ((eventPath e == q) : Bool) = true := by
    rw [he]
    exact beq_self_eq_true q
  simp [List.filter_cons, hb]

theorem filterPath_cons_ne (q : List String) (e : Event) (l : List Event)
    (he : eventPath e ≠ q) :
    List.filter (fun x => eventPath x == q) (e :: l)
      = List.filter (fun x => eventPath x == q) l := by
  have hb : ((eventPath e == q) : Bool) = false := beq_eq_false_iff_ne.mpr he
  simp [List.filter_cons, hb]

mutual

/-- Every path listed by preorderPaths extends the root path. -/
theorem preorderPaths_shape {d : ModuleDef} {p q : List String}
    (hq : q ∈ preorderPaths d p) : ∃ r, q = p ++ r := by
  cases d with
  | mk n opt subs params arena =>
      rw [show preorderPaths (.mk n opt subs params arena) p
          = p :: preorderPathsList subs p from rfl] at hq
      rcases List.mem_cons.mp hq with rfl | hmem
      · exact ⟨[], by rw [List.append_nil]⟩
      · obtain ⟨d', -, r, hr⟩ := preorderPathsList_shape hmem
        exact ⟨[d'.name] ++ r, by rw [hr, List.append_assoc]⟩

/-- Every path listed by preorderPathsList extends the root path through
the name of one of the child descriptors. -/
theorem preorderPathsList_shape {ds : List ModuleDef} {p q : List String}
    (hq : q ∈ preorderPathsList ds p) :
    ∃ d' ∈ ds, ∃ r, q = p ++ [d'.name] ++ r := by
  cases ds with
  | nil =>
      rw [show preorderPathsList [] p = [] from rfl] at hq
      exact absurd hq (List.not_mem_nil q)
  | cons d rest =>
      rw [show preorderPathsList (d :: rest) p
          = preorderPaths d (p ++ [d.name]) ++ preorderPathsList rest p from rfl] at hq
      rcases List.mem_append.mp hq with hmem | hmem
      · obtain ⟨r, hr⟩ := preorderPaths_shape hmem
        exact ⟨d, List.mem_cons_self d rest, r, hr⟩
      · obtain ⟨d', hd', r, hr⟩ := preorderPathsList_shape hmem
        exact ⟨d', List.mem_cons_of_mem d hd', r, hr⟩

end

/-- Membership in the child pre-order listing comes from one child. -/
theorem preorderPathsList_mem {ds : List ModuleDef} {p q : List String}
    (hq : q ∈ preorderPathsList ds p) :
    ∃ d' ∈ ds, q ∈ preorderPaths d' (p ++ [d'.name]) := by
  induction ds with
  | nil =>
      rw [show preorderPathsList [] p = [] from rfl] at hq
      exact absurd hq (List.not_mem_nil q)
  | cons d rest ih =>
      rw [show preorderPathsList (d :: rest) p
          = preorderPaths d (p ++ [d.name]) ++ preorderPathsList rest p from rfl] at hq
      rcases List.mem_append.mp hq with hmem | hmem
      · exact ⟨d, List.mem_cons_self d rest, hmem⟩
      · obtain ⟨d', hd', hm⟩ := ih hmem
        exact ⟨d', List.mem_cons_of_mem d hd', hm⟩

mutual

/-- Every event of a convertModule trace is addressed at or below the
entry path. -/
theorem convertModule_paths {ar : Archive} {tt : List Tensor} {d : ModuleDef}
    {p stk : List String} {tr : List Event}
    (h : convertModule ar tt d p = .ok (tr, stk)) :
    ∀ e ∈ tr, ∃ r, eventPath e = p ++ r := by
  cases d with
  | mk n opt subs params arena =>
      unfold convertModule at h
      split at h
      next => exact absurd h (by simp)
      next sub hsub =>
        split at h
        next => exact absurd h (by simp)
        next pe hpe =>
          split at h
          next => exact absurd h (by simp)
          next ce hce =>
            rw [Except.ok.injEq, Prod.mk.injEq] at h
            intro e he
            rw [← h.1] at he
            rcases List.mem_cons.mp he with rfl | he2
            · exact ⟨[], by rw [List.append_nil]; rfl⟩
            rcases List.mem_cons.mp he2 with rfl | he3
            · exact ⟨[], by rw [List.append_nil]; rfl⟩
            rcases List.mem_append.mp he3 with he4 | he5
            · rcases List.mem_append.mp he4 with he6 | he7
              · obtain ⟨d', -, r, hr⟩ := convertSubmodules_paths
                  (show convertSubmodules ar tt subs p = .ok (sub.1, sub.2) by rw [hsub])
                  e he6
                exact ⟨[d'.name] ++ r, by rw [hr, List.append_assoc]⟩
              · rw [registerParams_ok_char hpe] at he7
                obtain ⟨pr, -, hpr⟩ := List.mem_map.mp he7
                exact ⟨[], by rw [← hpr, List.append_nil]; rfl⟩
            · rw [List.mem_singleton] at he5
              obtain ⟨bytes, -, -, hc⟩ := loadArena_ok_inv hce
              rw [he5, hc]
              exact ⟨[], by rw [List.append_nil]; rfl⟩

/-- Every event of the submodule loop's trace is addressed below the
entry path, through the name of one of the children. -/
theorem convertSubmodules_paths {ar : Archive} {tt : List Tensor} {ds : List ModuleDef}
    {p stk : List String} {tr : List Event}
    (h : convertSubmodules ar tt ds p = .ok (tr, stk)) :
    ∀ e ∈ tr, ∃ d' ∈ ds, ∃ r, eventPath e = p ++ [d'.name] ++ r := by
  cases ds with
  | nil =>
      unfold convertSubmodules at h
      rw [Except.ok.injEq, Prod.mk.injEq] at h
      intro e he
      rw [← h.1] at he
      exact absurd he (List.not_mem_nil e)
  | cons d rest =>
      unfold convertSubmodules at h
      split at h
      next => exact absurd h (by simp)
      next r1 h1 =>
        split at h
        next => exact absurd h (by simp)
        next r2 h2 =>
          rw [Except.ok.injEq, Prod.mk.injEq] at h
          have hstk : r1.2 = p ++ [d.name] := convertModule_stack (by rw [h1])
          have hdrop : r1.2.dropLast = p := by rw [hstk, List.dropLast_concat]
          rw [hdrop] at h2
          intro e he
          rw [← h.1] at he
          rcases List.mem_append.mp he with he1 | he2
          · obtain ⟨r, hr⟩ := convertModule_paths
              (show convertModule ar tt d (p ++ [d.name]) = .ok (r1.1, r1.2) by rw [h1])
              e he1
            exact ⟨d, List.mem_cons_self d rest, r, by rw [hr, List.append_assoc]⟩
          · obtain ⟨d', hd', r, hr⟩ := convertSubmodules_paths
              (show convertSubmodules ar tt rest p = .ok (r2.1, r2.2) by rw [h2]) e he2
            exact ⟨d', List.mem_cons_of_mem d hd', r, hr⟩

end

mutual

/-- At every module path visited by convertModule, the events addressed
to that path are, in order: the module lookup, the optimize set, all
parameter registrations, and only then the code-arena handoff. Requires
pairwise-distinct sibling names so that paths identify modules. -/
theorem convertModule_filter {ar : Archive} {tt : List Tensor} {d : ModuleDef}
    {p stk : List String} {tr : List Event}
    (h : convertModule ar tt d p = .ok (tr, stk)) (hnd : noDupSiblings d = true) :
    ∀ q ∈ preorderPaths d p,
      ∃ (b : Bool) (ps : List ParameterDef) (bytes : List Nat),
        tr.filter (fun e => eventPath e == q)
          = Event.lookup q :: Event.setOptimized q b ::
              ((ps.map fun pr => Event.registerParam q pr.name
                  (tt.getD pr.tensor_id defaultTensor) pr.is_buffer)
                ++ [Event.loadCode q bytes tt]) := by
  cases d with
  | mk n opt subs params arena =>
      obtain ⟨hnd1, hnd2⟩ := noDupSiblings_parts hnd
      unfold convertModule at h
      split at h
      next => exact absurd h (by simp)
      next sub hsub =>
        split at h
        next => exact absurd h (by simp)
        next pe hpe =>
          split at h
          next => exact absurd h (by simp)
          next ce hce =>
            rw [Except.ok.injEq, Prod.mk.injEq] at h
            obtain ⟨bytes, -, -, hc⟩ := loadArena_ok_inv hce
            have hsub' : convertSubmodules ar tt subs p = .ok (sub.1, sub.2) := by
              rw [hsub]
            have hpe' := registerParams_ok_char hpe
            intro q hq
            rw [show preorderPaths (.mk n opt subs params arena) p
                = p :: preorderPathsList subs p from rfl] at hq
            rw [← h.1]
            rcases List.mem_cons.mp hq with rfl | hmem
            · refine ⟨opt, params, bytes, ?_⟩
              have hsubnil : ∀ e ∈ sub.1, ((eventPath e == q) : Bool) = false := by
                intro e he
                obtain ⟨d2, -, r2, hr2⟩ := convertSubmodules_paths hsub' e he
                rw [hr2]
                exact beq_eq_false_iff_ne.mpr (path_extend_ne q d2.name r2)
              have hpeall : ∀ e ∈ pe, ((eventPath e == q) : Bool) = true := by
                intro e he
                rw [hpe'] at he
                obtain ⟨pr, -, hpr⟩ := List.mem_map.mp he
                rw [← hpr]
                exact beq_self_eq_true q
              have hcefil : ∀ e ∈ [ce], ((eventPath e == q) : Bool) = true := by
                intro e he
                rw [List.mem_singleton] at he
                rw [he, hc]
                exact beq_self_eq_true q
              rw [filterPath_cons_eq q (Event.lookup q) _ rfl,
                  filterPath_cons_eq q (Event.setOptimized q opt) _ rfl,
                  List.filter_append, List.filter_append,
                  filter_eq_nil_of_none _ sub.1 hsubnil,
                  filter_eq_self_of_all _ pe hpeall,
                  filter_eq_self_of_all _ [ce] hcefil,
                  List.nil_append, hpe', hc]
            · obtain ⟨d', hd', r, hr⟩ := preorderPathsList_shape hmem
              have hqne : q ≠ p := by
                rw [hr]
                exact path_extend_ne p d'.name r
              have hpq : ((p == q) : Bool) = false := beq_eq_false_iff_ne.mpr hqne.symm
              have hpenil : ∀ e ∈ pe, ((eventPath e == q) : Bool) = false := by
                intro e he
                rw [hpe'] at he
                obtain ⟨pr, -, hpr⟩ := List.mem_map.mp he
                rw [← hpr]
                exact hpq
              have hcenil : ∀ e ∈ [ce], ((eventPath e == q) : Bool) = false := by
                intro e he
                rw [List.mem_singleton] at he
                rw [he, hc]
                exact hpq
              rw [filterPath_cons_ne q (Event.lookup p) _ fun he => hqne he.symm,
                  filterPath_cons_ne q (Event.setOptimized p opt) _ fun he => hqne he.symm,
                  List.filter_append, List.filter_append,
                  filter_eq_nil_of_none _ pe hpenil,
                  filter_eq_nil_of_none _ [ce] hcenil,
                  List.append_nil, List.append_nil]
              exact convertSubmodules_filter hsub' hnd1 hnd2 q hmem

/-- The per-path filtered-trace characterization for the submodule loop. -/
theorem convertSubmodules_filter {ar : Archive} {tt : List Tensor} {ds : List ModuleDef}
    {p stk : List String} {tr : List Event}
    (h : convertSubmodules ar tt ds p = .ok (tr, stk))
    (hnd : nodupStr (ds.map ModuleDef.name) = true)
    (hrec : noDupSiblingsList ds = true) :
    ∀ q ∈ preorderPathsList ds p,
      ∃ (b : Bool) (ps : List ParameterDef) (bytes : List Nat),
        tr.filter (fun e => eventPath e == q)
          = Event.lookup q :: Event.setOptimized q b ::
              ((ps.map fun pr => Event.registerParam q pr.name
                  (tt.getD pr.tensor_id defaultTensor) pr.is_buffer)
                ++ [Event.loadCode q bytes tt]) := by
  cases ds with
  | nil =>
      intro q hq
      rw [show preorderPathsList [] p = [] from rfl] at hq
      exact absurd hq (List.not_mem_nil q)
  | cons d rest =>
      obtain ⟨hd, hrest⟩ := noDupSiblingsList_parts hrec
      rw [List.map_cons] at hnd
      obtain ⟨hnotin, hnd'⟩ := nodupStr_cons hnd
      unfold convertSubmodules at h
      split at h
      next => exact absurd h (by simp)
      next r1 h1 =>
        split at h
        next => exact absurd h (by simp)
        next r2 h2 =>
          rw [Except.ok.injEq, Prod.mk.injEq] at h
          have hstk : r1.2 = p ++ [d.name] := convertModule_stack (by rw [h1])
          have hdrop : r1.2.dropLast = p := by rw [hstk, List.dropLast_concat]
          rw [hdrop] at h2
          have h1' : convertModule ar tt d (p ++ [d.name]) = .ok (r1.1, r1.2) := by
            rw [h1]
          have h2' : convertSubmodules ar tt rest p = .ok (r2.1, r2.2) := by
            rw [h2]
          intro q hq
          rw [show preorderPathsList (d :: rest) p
              = preorderPaths d (p ++ [d.name]) ++ preorderPathsList rest p from rfl] at hq
          rw [← h.1, List.filter_append]
          rcases List.mem_append.mp hq with hmA | hmB
          · have hfr2 : List.filter (fun e => eventPath e == q) r2.1 = [] := by
              refine filter_eq_nil_of_none _ r2.1 ?_
              intro e he
              obtain ⟨d2, hd2, r2x, hr2x⟩ := convertSubmodules_paths h2' e he
              obtain ⟨r, hr⟩ := preorderPaths_shape hmA
              rw [hr2x]
              refine beq_eq_false_iff_ne.mpr ?_
              intro he2
              rw [hr] at he2
              have hname := path_extend_inj he2
              exact hnotin (by rw [← hname]; exact List.mem_map_of_mem ModuleDef.name hd2)
            rw [hfr2, List.append_nil]
            exact convertModule_filter h1' hd q hmA
          · have hfr1 : List.filter (fun e => eventPath e == q) r1.1 = [] := by
              refine filter_eq_nil_of_none _ r1.1 ?_
              intro e he
              obtain ⟨r', hr'⟩ := convertModule_paths h1' e he
              obtain ⟨d2, hd2, r, hr⟩ := preorderPathsList_shape hmB
              rw [hr']
              refine beq_eq_false_iff_ne.mpr ?_
              intro he2
              rw [hr] at he2
              have hname := path_extend_inj he2
              exact hnotin (by rw [hname]; exact List.mem_map_of_mem ModuleDef.name hd2)
            rw [hfr1, List.nil_append]
            exact convertSubmodules_filter h2' hnd' hrest q hmB

end

/-- C3 amended: for a successful convertModule call on a descriptor tree
whose sibling names are pairwise distinct within each module: the final
module stack equals the entry stack (each child-name push is popped); the
lookup events enumerate the module paths depth-first, pre-order, siblings
left to right; within each visited module path the events addressed to it
are the lookup, the optimize set, all parameter registrations and only
then the code-arena handoff; and interpreting the trace of a root call
(empty entry path) over a fresh root builds exactly the module tree the
descriptor denotes, whose shape (child order and names) equals the
descriptor tree's. Without the distinct-sibling-name hypothesis the shape
part fails: duplicate sibling descriptors are merged into one child by
the create-if-absent lookup (see the counterexample). -/
theorem module_tree_build_fidelity
    (ar : Archive) (tt : List Tensor) (d : ModuleDef) (p stk : List String)
    (tr : List Event)
    (h : convertModule ar tt d p = .ok (tr, stk))
    (hnd : noDupSiblings d = true) :
    stk = p
    ∧ lookupPathsOf tr = preorderPaths d p
    ∧ (∀ q ∈ preorderPaths d p,
        ∃ (b : Bool) (ps : List ParameterDef) (bytes : List Nat),
          tr.filter (fun e => eventPath e == q)
            = Event.lookup q :: Event.setOptimized q b ::
                ((ps.map fun pr => Event.registerParam q pr.name
                    (tt.getD pr.tensor_id defaultTensor) pr.is_buffer)
                  ++ [Event.loadCode q bytes tt]))
    ∧ (p = [] →
        tr.foldl applyEvent emptyModule = buildModule tt d
        ∧ modShape (tr.foldl applyEvent emptyModule) = descShape d) := by
  refine ⟨convertModule_stack h, convertModule_lookupPaths h, convertModule_filter h hnd,
          fun hp => ?_⟩
  subst hp
  have hf := convertModule_fold h emptyModule
  rw [updateAt_nil] at hf
  rw [hf, localTransform_emptyModule tt d hnd]
  exact ⟨rfl, modShape_buildModule tt d⟩

def c3DupSub : ModuleDef := .mk "a" false [] [] ⟨1, 0⟩

def c3DupMain : ModuleDef := .mk "root" false [c3DupSub, c3DupSub] [] ⟨1, 0⟩

def c3DupAr : Archive := ⟨[(1, [])], some (.valid ⟨c3DupMain, []⟩)⟩

/-- Counterexample to C3 as stated: two sibling descriptors both named
"a" are merged into a single module child by the create-if-absent lookup
of load, so the module tree has one child where the descriptor tree has
two: the shapes differ, although the load call succeeds. -/
theorem module_tree_shape_counterexample :
    load_stream c3DupAr = .ok (.mk false [("a", .mk false [] [])] [])
    ∧ modShape (.mk false [("a", .mk false [] [])] []) ≠ descShape c3DupMain := by
  constructor
  · rfl
  · intro h
    have h2 : Shape.node [("a", Shape.node [])]
        = Shape.node [("a", Shape.node []), ("a", Shape.node [])] := h
    have h3 := congrArg (fun s => match s with | Shape.node l => l.length) h2
    simp at h3

def c3wSubA : ModuleDef := .mk "a" false [] [] ⟨1, 0⟩

def c3wSubB : ModuleDef := .mk "b" true [] [] ⟨1, 0⟩

def c3wMain : ModuleDef := .mk "root" true [c3wSubA, c3wSubB] [⟨"w", 0, false⟩] ⟨1, 0⟩

def c3wAr : Archive := ⟨[(1, []), (7, [2])], none⟩

def c3wTensor : Tensor := ⟨⟨0, [2], 1⟩, 0, [1], [1], false⟩

def c3wTrace : List Event :=
  [.lookup [], .setOptimized [] true,
   .lookup ["a"], .setOptimized ["a"] false, .loadCode ["a"] [] [c3wTensor],
   .lookup ["b"], .setOptimized ["b"] true, .loadCode ["b"] [] [c3wTensor],
   .registerParam [] "w" c3wTensor false,
   .loadCode [] [] [c3wTensor]]

/-- Witness for the amended C3 on a two-child module with one parameter:
the stack is restored, the lookups run in pre-order, and interpreting the
trace builds the descriptor's tree with the descriptor's shape. -/
theorem module_tree_build_fidelity_witness :
    convertModule c3wAr [c3wTensor] c3wMain [] = .ok (c3wTrace, [])
    ∧ lookupPathsOf c3wTrace = [[], ["a"], ["b"]]
    ∧ c3wTrace.foldl applyEvent emptyModule = buildModule [c3wTensor] c3wMain
    ∧ modShape (c3wTrace.foldl applyEvent emptyModule) = descShape c3wMain := by
  have hh := module_tree_build_fidelity c3wAr [c3wTensor] c3wMain [] [] c3wTrace rfl rfl
  refine ⟨rfl, ?_, (hh.2.2.2 rfl).1, (hh.2.2.2 rfl).2⟩
  rw [hh.2.1]
  rfl

/-- Counterexample to C8 as stated: with a path that cannot be opened,
the path overload of import_ir_module does not fail with the open error
before deserialization: the deserializer is constructed on the failed
stream without any check and the failure surfaces as a read error from
inside deserialization. -/
theorem open_from_path_counterexample :
    openBinary [] "model.pt" = none
    ∧ importIrModuleFile [] "model.pt" = .error .archiveReadError
    ∧ DeserializeError.archiveReadError ≠ DeserializeError.archiveOpenError :=
  ⟨rfl, rfl, by decide⟩

/-- C8 amended: load(path) checks the open result and fails with the open
error before any deserialization is attempted; import_ir_module(lookup,
path) performs no open check, so with an unopenable path it proceeds into
deserialization over the failed stream and fails there with the archive
read error. -/
theorem open_from_path_behavior (fs : FileSystem) (path : String)
    (h : openBinary fs path = none) :
    load_file fs path = .error .archiveOpenError
    ∧ importIrModuleFile fs path = .error .archiveReadError := by
  constructor
  · unfold load_file
    rw [h]
  · unfold importIrModuleFile archiveOfFile
    rw [h]
    rfl

/-- Witness for the amended C8 on an empty file system. -/
theorem open_from_path_behavior_witness :
    load_file [] "model.pt" = .error .archiveOpenError
    ∧ importIrModuleFile [] "model.pt" = .error .archiveReadError :=
  open_from_path_behavior [] "model.pt" rfl

/-- C9: for any openable path, load(path) opens the file and delegates to
load(stream) over the same bytes: the two calls return equal results, the
path overload adding only the open check. -/
theorem load_file_refines_load_stream (fs : FileSystem) (path : String) (ar : Archive)
    (h : openBinary fs path = some ar) :
    load_file fs path = load_stream ar := by
  unfold load_file
  rw [h]

def c9Model : ModelDef := ⟨.mk "m" true [] [] ⟨9, 0⟩, []⟩

def c9Ar : Archive := ⟨[(9, [])], some (.valid c9Model)⟩

/-- Witness for C9: a one-file file system where both entry points
produce the same one-module tree. -/
theorem load_file_refines_load_stream_witness :
    load_file [("m.pt", c9Ar)] "m.pt" = load_stream c9Ar
    ∧ load_stream c9Ar = .ok (.mk true [] []) := by
  refine ⟨load_file_refines_load_stream [("m.pt", c9Ar)] "m.pt" c9Ar rfl, ?_⟩
  rfl

end TorchJit
